import Mathlib

/-!
Verification development for the json2ts repository: a shallow embedding of
the JSON-to-TypeScript interface conversion engine, together with theorems
settling the specification claims.

Conventions used throughout the embedding:
* JavaScript strings are modelled by Lean `String`; `.length`, `substring`
  and character tests agree with JavaScript on the ASCII inputs exercised
  here.
* JavaScript numbers are modelled by `Int`: the converter only consumes a
  number's `typeof` tag and (for the custom type map) its decimal
  rendering, both of which agree on integer numerals.
* Literal braces inside string literals are written with the escapes
  `\x7b` and `\x7d`; apostrophes inside string literals are written `\x27`.
-/

/-- JavaScript `String.prototype.trim`: drop leading and trailing
whitespace. -/
def jsTrim (s : String) : String :=
  String.mk ((s.data.dropWhile Char.isWhitespace).reverse.dropWhile
    Char.isWhitespace).reverse

/-- JavaScript `String.prototype.trimEnd`: drop trailing whitespace. -/
def jsTrimEnd (s : String) : String :=
  String.mk (s.data.reverse.dropWhile Char.isWhitespace).reverse

/-- First character of a string, with a default for the empty string
(JavaScript `s[0]`, used only under a non-emptiness guard in the source). -/
def jsFirstChar (s : String) : Char :=
  s.data.headD ' '

/-- JavaScript `s.substring 0 n` on ASCII strings: first `n` characters. -/
def jsTake (s : String) (n : Nat) : String :=
  String.mk (s.data.take n)

/-- A JavaScript runtime value, restricted to the shapes the converters
consume: JSON values plus `undefined` and `bigint` leaves.  Host-only
values (functions, symbols, `Set`/`Map`, class instances) are outside the
modelled domain; the code paths that touch them are noted at their
translation sites.  `num` carries an integer numeral (see the header). -/
inductive JsVal where
  | null
  | undef
  | bool (b : Bool)
  | num (n : Int)
  | str (s : String)
  | bigint (n : Int)
  | arr (xs : List JsVal)
  | obj (fields : List (String × JsVal))

/-- JavaScript `typeof` on the modelled domain (`typeof null` is
`"object"`, arrays and plain objects are `"object"`). -/
def typeofTag : JsVal → String
  | .null => "object"
  | .undef => "undefined"
  | .bool _ => "boolean"
  | .num _ => "number"
  | .str _ => "string"
  | .bigint _ => "bigint"
  | .arr _ => "object"
  | .obj _ => "object"

/-- JavaScript string coercion `String(v)` for the non-object values that
can reach the custom type-map lookup. -/
def jsToStr : JsVal → String
  | .null => "null"
  | .undef => "undefined"
  | .bool b => if b then "true" else "false"
  | .num n => toString n
  | .str s => s
  | .bigint n => toString n
  | .arr _ => ""
  | .obj _ => ""

/-- Insertion-ordered deduplication, as performed by `new Set(list)` in
JavaScript (first occurrence kept). -/
def jsSetList : List String → List String
  | [] => []
  | x :: xs => x :: (jsSetList xs).filter (fun y => y != x)

/-- Finer element classification used by `detectTypeFromArray` inside the
tuple-size band (source part_001 lines 131-137): `null`, `undefined`,
`object`, `array`, or the `typeof` tag. -/
def fineTag : JsVal → String
  | .null => "null"
  | .undef => "undefined"
  | .arr _ => "array"
  | .obj _ => "object"
  | v => typeofTag v

/-- Coarser element classification used by `detectTypeFromArray` when
building a tuple (source part_001 lines 146-151): `null`, `undefined`,
`object` for any object (arrays included), or the `typeof` tag. -/
def coarseTag : JsVal → String
  | .null => "null"
  | .undef => "undefined"
  | .arr _ => "object"
  | .obj _ => "object"
  | v => typeofTag v

/-- `ConverterUtils.detectTypeFromArray` (source part_001 lines 117-153):
classify an array of values as a homogeneous array type, a positional
tuple type, or a generic fallback, honouring the tuple-size band. -/
def detectTypeFromArray (values : List JsVal) (maxTupleSize : Nat := 10)
    (minTupleSize : Nat := 2) : String :=
  if values.length = 0 then "any[]"
  else if values.length > maxTupleSize ∨ values.length < minTupleSize then
    -- size fallback: distinct typeof tags, object-typed elements excluded
    let types := jsSetList ((values.map typeofTag).filter (· ≠ "object"))
    if types.length = 1 then types.headD "" ++ "[]" else "any[]"
  else
    let uniqueTypes := jsSetList (values.map fineTag)
    if uniqueTypes.length = 1 ∧ ¬ uniqueTypes.contains "object"
        ∧ ¬ uniqueTypes.contains "array" then
      uniqueTypes.headD "" ++ "[]"
    else
      "[" ++ String.intercalate ", " (values.map coarseTag) ++ "]"

/-- Character class `[A-Za-z_$]` (start of a TypeScript identifier). -/
def isIdentStart (c : Char) : Bool :=
  c.isAlpha || c == '_' || c == '$'

/-- Character class `[A-Za-z0-9_$]` (tail of a TypeScript identifier). -/
def isIdentChar (c : Char) : Bool :=
  c.isAlphanum || c == '_' || c == '$'

/-- `ConverterBase.isValidIdentifier` (JsonToTsConverter.ts lines 315-317):
the regular expression test `^[A-Za-z_$][A-Za-z0-9_$]*$`. -/
def isValidIdentifier (s : String) : Bool :=
  match s.data with
  | [] => false
  | c :: cs => isIdentStart c && cs.all isIdentChar

/-- First character is in `[a-z]` (the `/^[a-z]/` test of the source). -/
def startsLowerAlpha (s : String) : Bool :=
  match s.data with
  | [] => false
  | c :: _ => c.isLower

/-- `ConverterUtils.suggestPropertyName` (source part_001 lines 610-632):
quote a property name unless it is a valid identifier.  The
null/undefined-key branch of the source cannot arise here because keys
are strings in the modelled domain. -/
def suggestPropertyName (key : String) : String :=
  if isValidIdentifier key then key
  else if key.data.contains ' ' || !(startsLowerAlpha key)
      || !(key.data.all isIdentChar) then
    "\x22" ++ key ++ "\x22"
  else key

/-- `JsonToTsConverter.capitalize` (JsonToTsConverter.ts lines 221-226,
identical in part_006 lines 1114-1119): strip characters outside
`[a-zA-Z0-9_$]` and upper-case the first remaining character. -/
def capitalizeKey (str : String) : String :=
  if str = "" then ""
  else
    match (str.data.filter isIdentChar) with
    | [] => ""
    | c :: cs => String.mk (c.toUpper :: cs)

/-- Membership in the quick-format character set `JSON_START_CHARS`:
`{ '[', '"', 't', 'f', 'n', '-', '0'..'9' }` together with the opening
brace. -/
def isJsonStartChar (c : Char) : Bool :=
  c == '\x7b' || c == '[' || c == '\x22' || c == 't' || c == 'f'
    || c == 'n' || c == '-' || c.isDigit

/-- Error kinds of the `JsonParseError` enum (source part_001 / the
reworked ConverterBase). -/
inductive JsonParseError where
  | invalidInput
  | invalidFormat
  | parseFailed
  | undefinedResult
deriving Repr, DecidableEq

/-- The `ParseResult` record of the reworked parse pipeline. -/
structure ParseResult where
  data : Option JsVal
  error : Option JsonParseError
  details : Option String

/-- An input to the parse helpers: either an already-structured runtime
value (JavaScript `null` and `undefined` are the values `.null` and
`.undef`) or source text. -/
inductive JsInputP where
  | value (v : JsVal)
  | text (s : String)

/-- Scan for the first match of the regular expression `position (\d+)`
inside an error message: the digits following the first occurrence of
the literal `position ` that is immediately followed by a digit. -/
def findPositionIn : List Char → Option String
  | [] => none
  | c :: cs =>
    if "position ".data.isPrefixOf (c :: cs) then
      let ds := ((c :: cs).drop 9).takeWhile Char.isDigit
      if ds.isEmpty then findPositionIn cs else some (String.mk ds)
    else findPositionIn cs

/-- `e.message.match(/position (\d+)/)?.[1] || 'unknown'` (source part_001
line 503). -/
def extractPosition (msg : String) : String :=
  (findPositionIn msg.data).getD "unknown"

/-- The textual branch shared verbatim by `ConverterUtils.jsonParse`
(part_001 lines 479-512) and the reworked `ConverterBase.parseJson`
(lines 337-370): trim, reject empty, quick format check on the first
character, then attempt a structural parse.  The host JSON parser is
abstracted as a `parser` function returning either a value or an
exception message. -/
def parseTextual (parser : String → Except String JsVal) (s : String) :
    ParseResult :=
  let trimmed := jsTrim s
  if trimmed = "" then
    ⟨none, some .invalidInput, some "Input is empty or whitespace"⟩
  else if !(isJsonStartChar (jsFirstChar trimmed)) then
    ⟨none, some .invalidFormat,
      some ("Input starts with \x27" ++ String.mk [jsFirstChar trimmed]
        ++ "\x27, expected JSON value")⟩
  else
    match parser trimmed with
    | .ok .undef => ⟨none, some .undefinedResult, none⟩
    | .ok v => ⟨some v, none, none⟩
    | .error msg =>
      let snippet :=
        if trimmed.length > 100 then jsTake trimmed 97 ++ "..." else trimmed
      ⟨none, some .parseFailed,
        some ("at position " ++ extractPosition msg ++ ": " ++ msg
          ++ "\nInput: " ++ snippet)⟩

/-- `ConverterUtils.jsonParse` (source part_001 lines 468-513): rejects a
strict `null` input, passes other non-string values through, and runs
the textual pipeline on strings. -/
def jsonParse (parser : String → Except String JsVal) :
    JsInputP → ParseResult
  | .value .null =>
    ⟨none, some .invalidInput, some "Input is null or undefined"⟩
  | .value v => ⟨some v, none, none⟩
  | .text s => parseTextual parser s

/-- The reworked `ConverterBase.parseJson` (JsonToTsConverter.ts lines
326-371): identical to `jsonParse` except that the loose `json == null`
check also rejects `undefined`. -/
def parseJsonCB (parser : String → Except String JsVal) :
    JsInputP → ParseResult
  | .value .null =>
    ⟨none, some .invalidInput, some "Input is null or undefined"⟩
  | .value .undef =>
    ⟨none, some .invalidInput, some "Input is null or undefined"⟩
  | .value v => ⟨some v, none, none⟩
  | .text s => parseTextual parser s

/-- JavaScript truthiness on the modelled value domain (`!v`). -/
def jsFalsy : JsVal → Bool
  | .null => true
  | .undef => true
  | .bool b => !b
  | .num n => n == 0
  | .str s => s == ""
  | .bigint n => n == 0
  | .arr _ => false
  | .obj _ => false

/-- The original `ConverterBase.parseJson` (src/src/base/ConverterBase.ts
lines 79-94): rejects every falsy input, passes non-strings through,
rejects whitespace-only strings, and maps parse exceptions to `null`
(modelled as `none`).  Note that the structural parse runs on the
untrimmed input in this generation. -/
def parseJsonOld (parser : String → Except String JsVal) :
    JsInputP → Option JsVal
  | .value v => if jsFalsy v then none else some v
  | .text s =>
    if s = "" then none
    else if jsTrim s = "" then none
    else
      match parser s with
      | .ok v => some v
      | .error _ => none

/-- The `ExportType` union: which generated declarations receive the
`export` keyword. -/
inductive ExportType where
  | all
  | root
  | none
deriving Repr, DecidableEq

/-- The `ConvertOptions` record (src/src/typings/global.ts).  The
`propertyCase`, `readonlyProperties` and `optionalProperties` fields are
omitted: the translated call paths either do not consult them or
delegate their effect to the external change-case library, whose default
`original` policy is the identity modelled here. -/
structure ConvertOptions where
  arrayMaxTupleSize : Option Nat := Option.none
  arrayMinTupleSize : Option Nat := Option.none
  strict : Option Bool := Option.none
  typeMap : Option (List (String × String)) := Option.none

/-- Truthiness of the `strict` option (`if (this.options.strict)`). -/
def ConvertOptions.strictOn (o : ConvertOptions) : Bool :=
  o.strict.getD false

/-- The insertion-ordered interface table (`Map<string, string>`). -/
abbrev IfaceTable := List (String × String)

/-- `Map.prototype.has`. -/
def tableHas (t : IfaceTable) (name : String) : Bool :=
  t.any (·.1 == name)

/-- `Map.prototype.set`: replace in place when the key exists (insertion
position retained), append otherwise. -/
def tableSet (t : IfaceTable) (name content : String) : IfaceTable :=
  match t with
  | [] => [(name, content)]
  | (k, c) :: rest =>
    if k == name then (k, content) :: rest
    else (k, c) :: tableSet rest name content

/-- `Object.keys(v)` paired with the corresponding property values: the
fields of an object, or the index-keyed elements of an array.  Primitive
values never reach the translated call sites of this helper. -/
def jsEntries : JsVal → List (String × JsVal)
  | .obj fields => fields
  | .arr xs => (enumFromIdx 0 xs)
  | _ => []
where
  enumFromIdx : Nat → List JsVal → List (String × JsVal)
    | _, [] => []
    | i, x :: xs => (toString i, x) :: enumFromIdx (i + 1) xs

/-- Test for a plain record: `typeof v === 'object' && v !== null &&
!Array.isArray(v)`. -/
def isPlainObjB : JsVal → Bool
  | .obj _ => true
  | _ => false

mutual

/-- `JsonToTsConverter.generateInterface` (JsonToTsConverter.ts lines
142-165), over value trees.  The function takes the object's key/value
entries (`Object.keys` pairs).  The `visitedObjects` WeakSet guard is
omitted in this tree model: on parsed-JSON trees every node is a fresh
object, so `visitedObjects.has(obj)` is always false (the heap model
below retains the guard).  Recursion is bounded by explicit fuel;
`none` means the fuel ran out. -/
def genInterfaceV1 (opts : ConvertOptions) :
    Nat → IfaceTable → List (String × JsVal) → String → Bool →
    Option IfaceTable
  | 0, _, _, _, _ => Option.none
  | fuel + 1, tbl, entries, interfaceName, appendExport =>
    if tableHas tbl interfaceName then some tbl
    else
      match genBodyV1 opts fuel tbl entries appendExport with
      | Option.none => Option.none
      | some (body, tbl1) =>
        some (tableSet tbl1 interfaceName
          ((if appendExport then "export " else "") ++ "interface "
            ++ interfaceName ++ " \x7b\n" ++ jsTrimEnd body ++ "\n\x7d"))

/-- The property loop of `generateInterface` (lines 157-161): one body
line `  key: type;` per entry, threading the interface table. -/
def genBodyV1 (opts : ConvertOptions) :
    Nat → IfaceTable → List (String × JsVal) → Bool →
    Option (String × IfaceTable)
  | 0, _, _, _ => Option.none
  | _ + 1, tbl, [], _ => some ("", tbl)
  | fuel + 1, tbl, (key, value) :: rest, appendExport =>
    match getTypeV1 opts fuel tbl value (capitalizeKey key) appendExport with
    | Option.none => Option.none
    | some (ty, tbl1) =>
      match genBodyV1 opts fuel tbl1 rest appendExport with
      | Option.none => Option.none
      | some (restBody, tbl2) =>
        some ("  " ++ key ++ ": " ++ ty ++ ";\n" ++ restBody, tbl2)

/-- `JsonToTsConverter.getType` (JsonToTsConverter.ts lines 180-210):
null literal, array classification (with interface generation for the
first object element), nested records, and `typeof` for the rest. -/
def getTypeV1 (opts : ConvertOptions) :
    Nat → IfaceTable → JsVal → String → Bool → Option (String × IfaceTable)
  | 0, _, _, _, _ => Option.none
  | fuel + 1, tbl, value, parentKey, appendExport =>
    match value with
    | .null => some ("null", tbl)
    | .arr xs =>
      let arrayType := detectTypeFromArray xs
        (opts.arrayMaxTupleSize.getD 10) (opts.arrayMinTupleSize.getD 2)
      if xs.any isPlainObjB then
        match xs.find? isPlainObjB with
        | some firstObject =>
          let interfaceName := capitalizeKey parentKey
          match genInterfaceV1 opts fuel tbl (jsEntries firstObject)
              interfaceName appendExport with
          | Option.none => Option.none
          | some tbl1 => some (interfaceName ++ "[]", tbl1)
        | Option.none => some (arrayType, tbl)
          -- unreachable: the `any` guard guarantees a witness
      else some (arrayType, tbl)
    | .obj fields =>
      let interfaceName := capitalizeKey parentKey
      match genInterfaceV1 opts fuel tbl fields interfaceName appendExport with
      | Option.none => Option.none
      | some tbl1 => some (interfaceName, tbl1)
    | v => some (typeofTag v, tbl)

end

/-- `JsonToTsConverter.convertJson` (JsonToTsConverter.ts lines 115-129)
with the declaration list exposed before joining: a non-object root
yields a permissive index-signature record; otherwise the interfaces are
generated and emitted in reverse registration order. -/
def convertJsonV1Decls (fuel : Nat) (opts : ConvertOptions) (jsonData : JsVal)
    (rootInterfaceName : String) (exportType : ExportType) :
    Option IfaceTable :=
  match jsonData with
  | .obj _ | .arr _ =>
    match genInterfaceV1 opts fuel [] (jsEntries jsonData) rootInterfaceName
        (exportType == .all) with
    | Option.none => Option.none
    | some tbl => some tbl.reverse
  | _ =>
    some [(rootInterfaceName,
      (if exportType != .none then "export " else "") ++ "interface "
        ++ rootInterfaceName ++ " \x7b\n  [p: string]: unknown;\n\x7d")]

/-- The joined output text of `JsonToTsConverter.convertJson`. -/
def convertJsonV1 (fuel : Nat) (opts : ConvertOptions) (jsonData : JsVal)
    (rootInterfaceName : String) (exportType : ExportType) : Option String :=
  (convertJsonV1Decls fuel opts jsonData rootInterfaceName exportType).map
    (fun ds => String.intercalate "\n\n" (ds.map (·.2)))

/-- The static `JsonToTsConverter.convert` entry point
(JsonToTsConverter.ts lines 95-102): parse with the original
`parseJson`, reject falsy parse results, and prepend `export ` to the
whole output under the `root` policy. -/
def convertTopV1 (fuel : Nat) (parser : String → Except String JsVal)
    (opts : ConvertOptions) (input : JsInputP) (interfaceName : String)
    (exportType : ExportType) : Option String :=
  match parseJsonOld parser input with
  | Option.none => Option.none
  | some parsed =>
    if jsFalsy parsed then Option.none
    else
      (convertJsonV1 fuel opts parsed interfaceName exportType).map
        (fun out => (if exportType == .root then "export " else "") ++ out)

/-- `ConverterUtils.detectJsTypeFromObject` (source part_001 lines
209-283) restricted to the modelled value domain: `null`/`undefined`
map to `unknown` unless strict; primitives map to their `typeof` tag;
an empty array maps to the permissive array type; a non-empty plain
array reaches the iterable fallback; a plain record yields `null`
(handled separately by the caller).  The host-only branches (functions,
symbols, typed arrays, `Date`/`RegExp`/... instance checks, class
instances) concern values outside the modelled domain. -/
def detectJsTypeFromObject (v : JsVal) (strict : Bool) : Option String :=
  let strictAny := if strict then "unknown" else "any"
  match v with
  | .null => some (if strict then "null" else "unknown")
  | .undef => some (if strict then "undefined" else "unknown")
  | .bool _ | .num _ | .str _ => some (typeofTag v)
  | .bigint _ => some "bigint"
  | .arr [] => some (strictAny ++ "[]")
  | .arr (_ :: _) => some ("Iterable<" ++ strictAny ++ ">")
  | .obj _ => Option.none

/-- Lookup in the custom type map (a plain JavaScript dictionary keyed by
strings). -/
def typeMapLookup (tm : List (String × String)) (key : String) :
    Option String :=
  match tm.find? (·.1 == key) with
  | some kv => some kv.2
  | Option.none => Option.none

/-- The type-name-keyed lookup `typeMap[typeof value]` with the source's
truthiness test on the result. -/
def typeMapTypeBased (tm : List (String × String)) (v : JsVal) :
    Option String :=
  match typeMapLookup tm (typeofTag v) with
  | some t => if t == "" then Option.none else some t
  | Option.none => Option.none

/-- The custom type-map override of `getType` (source part_006 lines
1025-1035): for non-null non-object values, an exact-value key
(`typeMap[value as string]`, the value coerced to a string) is consulted
first, then a runtime-type key; a falsy (empty) mapping is skipped. -/
def typeMapHit (opts : ConvertOptions) (value : JsVal) : Option String :=
  match opts.typeMap with
  | Option.none => Option.none
  | some tm =>
    match value with
    | .null | .arr _ | .obj _ => Option.none
    | v =>
      match typeMapLookup tm (jsToStr v) with
      | some t => if t == "" then typeMapTypeBased tm v else some t
      | Option.none => typeMapTypeBased tm v

/-- The strict-mode primitive switch of the part_006 `getType` (lines
1085-1100).  On the modelled domain every non-object value already
received a type from `detectJsTypeFromObject`, so this branch is dead
code retained for faithfulness. -/
def strictSwitchV2 : JsVal → String
  | .str _ => "string"
  | .num _ => "number"
  | .bool _ => "boolean"
  | .bigint _ => "bigint"
  | _ => "unknown"

/-- Modelled from the spec: `toPropertyName` is called by the part_006
`generateInterface` but its body is not under src/ (only the call site
is).  Per spec section 4.2 the field-name pipeline applies the
property-casing policy and then quoting; at the default `original`
policy the case transform is the identity, and quoting is the
repository's `suggestPropertyName`. -/
def toPropertyName (key : String) : String :=
  suggestPropertyName key

mutual

/-- The part_006 `JsonToTsConverter.generateInterface` (lines 986-1008),
over value trees: like the earlier generation but with property names
routed through `toPropertyName`.  The `visitedObjects` guard is omitted
for the same reason as in `genInterfaceV1` (tree nodes are never
revisited); recursion is bounded by explicit fuel. -/
def genInterfaceV2 (opts : ConvertOptions) :
    Nat → IfaceTable → List (String × JsVal) → String → Bool →
    Option IfaceTable
  | 0, _, _, _, _ => Option.none
  | fuel + 1, tbl, entries, interfaceName, appendExport =>
    if tableHas tbl interfaceName then some tbl
    else
      match genBodyV2 opts fuel tbl entries appendExport with
      | Option.none => Option.none
      | some (body, tbl1) =>
        some (tableSet tbl1 interfaceName
          ((if appendExport then "export " else "") ++ "interface "
            ++ interfaceName ++ " \x7b\n" ++ jsTrimEnd body ++ "\n\x7d"))

/-- The property loop of the part_006 `generateInterface` (lines
1000-1004). -/
def genBodyV2 (opts : ConvertOptions) :
    Nat → IfaceTable → List (String × JsVal) → Bool →
    Option (String × IfaceTable)
  | 0, _, _, _ => Option.none
  | _ + 1, tbl, [], _ => some ("", tbl)
  | fuel + 1, tbl, (key, value) :: rest, appendExport =>
    match getTypeV2 opts fuel tbl value (capitalizeKey key) appendExport with
    | Option.none => Option.none
    | some (ty, tbl1) =>
      match genBodyV2 opts fuel tbl1 rest appendExport with
      | Option.none => Option.none
      | some (restBody, tbl2) =>
        some ("  " ++ toPropertyName key ++ ": " ++ ty ++ ";\n" ++ restBody,
          tbl2)

/-- The part_006 `JsonToTsConverter.getType` (lines 1023-1103) on the
modelled domain: custom type map first; `Set`/`Map` instances are
host-only values outside the domain; non-empty arrays go to the
classifier; other values go through `detectJsTypeFromObject`; a plain
record synthesizes a named interface (the class-instance branch cannot
arise for parsed JSON, whose records always have constructor `Object`);
the trailing strict switch and `typeof` fallback are dead on this
domain but retained. -/
def getTypeV2 (opts : ConvertOptions) :
    Nat → IfaceTable → JsVal → String → Bool → Option (String × IfaceTable)
  | 0, _, _, _, _ => Option.none
  | fuel + 1, tbl, value, parentKey, appendExport =>
    match typeMapHit opts value with
    | some mapped => some (mapped, tbl)
    | Option.none =>
      match value with
      | .arr (x :: xs) =>
        some (detectTypeFromArray (x :: xs)
          (opts.arrayMaxTupleSize.getD 10) (opts.arrayMinTupleSize.getD 2),
          tbl)
      | .obj fields =>
        let interfaceName := capitalizeKey parentKey
        match genInterfaceV2 opts fuel tbl fields interfaceName
            appendExport with
        | Option.none => Option.none
        | some tbl1 => some (interfaceName, tbl1)
      | v =>
        match detectJsTypeFromObject v opts.strictOn with
        | some basicType => some (basicType, tbl)
        | Option.none =>
          some (if opts.strictOn then strictSwitchV2 v else typeofTag v, tbl)

end

/-- The part_006 `JsonToTsConverter.convertJson` (lines 952-973) with the
declaration list exposed before joining: a non-object root yields a
strict type alias or a permissive index-signature record; otherwise the
interfaces are emitted in reverse registration order, the `export `
marker being attached at assembly time to the declaration whose name
equals the root name when the policy is `root`. -/
def convertJsonV2Decls (fuel : Nat) (opts : ConvertOptions) (jsonData : JsVal)
    (rootInterfaceName : String) (exportType : ExportType) :
    Option (List (String × String)) :=
  let exports := if exportType != .none then "export " else ""
  match jsonData with
  | .obj _ | .arr _ =>
    match genInterfaceV2 opts fuel [] (jsEntries jsonData) rootInterfaceName
        (exportType == .all) with
    | Option.none => Option.none
    | some tbl =>
      some (tbl.reverse.map (fun e =>
        (e.1,
          (if e.1 == rootInterfaceName && exportType == .root then exports
            else "") ++ e.2)))
  | _ =>
    if opts.strictOn then
      some [(rootInterfaceName,
        exports ++ "type " ++ rootInterfaceName ++ " = null;")]
    else
      some [(rootInterfaceName,
        exports ++ "interface " ++ rootInterfaceName
          ++ " \x7b\n  [p: string]: unknown;\n\x7d")]

/-- The joined output text of the part_006 `convertJson`. -/
def convertJsonV2 (fuel : Nat) (opts : ConvertOptions) (jsonData : JsVal)
    (rootInterfaceName : String) (exportType : ExportType) : Option String :=
  (convertJsonV2Decls fuel opts jsonData rootInterfaceName exportType).map
    (fun ds => String.intercalate "\n\n" (ds.map (·.2)))

/-- Outcome of the validated `convert` entry point: a hard (thrown) error
or a returned value (`none` standing for the JavaScript `null`). -/
inductive ConvertOutcome where
  | thrown (msg : String)
  | returned (out : Option String)
deriving DecidableEq

/-- The reworked `ConverterBase.convert` (JsonToTsConverter.ts lines
276-302): validate the interface name (throwing on failure), parse with
the reworked `parseJson` (returning `null` on error), then delegate to
the concrete converter, abstracted as `convertFn`.  The surrounding
try/catch is unreachable in the model because `convertFn` is total. -/
def convertBaseTop (parser : String → Except String JsVal)
    (convertFn : JsVal → String → ExportType → String) (input : JsInputP)
    (interfaceName : String) (exportType : ExportType) : ConvertOutcome :=
  if !(isValidIdentifier interfaceName) then
    .thrown ("Invalid interface name: \x22" ++ interfaceName
      ++ "\x22. Must be a valid TypeScript identifier.")
  else
    let parseResult := parseJsonCB parser input
    if parseResult.error.isSome then .returned Option.none
    else
      match parseResult.data with
      | some d => .returned (some (convertFn d interfaceName exportType))
      | Option.none => .returned (some (convertFn .null interfaceName
          exportType))
        -- unreachable: an error-free parse result always carries data

/-- A JavaScript runtime value in the heap model used for cyclic object
graphs: plain records live in a heap and are referred to by identity
(`ref`), matching JavaScript reference semantics; arrays are kept
structural because the visited-set logic of both converters only ever
tests record identities.  `undefined`/`bigint` leaves are omitted from
this model (they are host-only and orthogonal to the cycle claims). -/
inductive HValue where
  | null
  | bool (b : Bool)
  | num (n : Int)
  | str (s : String)
  | arr (xs : List HValue)
  | ref (id : Nat)

/-- A heap: record identities mapped to their ordered fields. -/
abbrev Heap := List (Nat × List (String × HValue))

/-- Resolve a record identity. -/
def heapFind (h : Heap) (id : Nat) : Option (List (String × HValue)) :=
  match h.find? (·.1 == id) with
  | some e => some e.2
  | Option.none => Option.none

/-- JavaScript `typeof` on heap values (`typeof null` is `"object"`;
arrays and records are objects). -/
def typeofTagH : HValue → String
  | .null => "object"
  | .bool _ => "boolean"
  | .num _ => "number"
  | .str _ => "string"
  | .arr _ => "object"
  | .ref _ => "object"

/-- `item === null || typeof item !== 'object'` (the
`containsOnlyPrimitives` element test of the Flattened converter). -/
def isPrimitiveItemH : HValue → Bool
  | .null => true
  | .arr _ => false
  | .ref _ => false
  | _ => true

/-- Record test `typeof v === 'object' && v !== null && !Array.isArray(v)`
on heap values. -/
def isRefB : HValue → Bool
  | .ref _ => true
  | _ => false

mutual

/-- View of a heap value as a classifier input: `detectTypeFromArray`
only inspects `typeof`/`Array.isArray`/null of the elements, so records
map to an opaque object. -/
def hToJsVal : HValue → JsVal
  | .null => .null
  | .bool b => .bool b
  | .num n => .num n
  | .str s => .str s
  | .arr xs => .arr (hToJsValList xs)
  | .ref _ => .obj []

/-- Pointwise `hToJsVal`. -/
def hToJsValList : List HValue → List JsVal
  | [] => []
  | x :: xs => hToJsVal x :: hToJsValList xs

end

/-- `JsonToFlattenedTsConverter.getIndent` (lines 230-232): two spaces per
level. -/
def indentStr (level : Nat) : String :=
  String.mk (List.replicate (level * 2) ' ')

/-- One application of `.replace(/\[]$/, '')`: strip a trailing `[]`. -/
def stripTrailingBrackets (s : String) : String :=
  match s.data.reverse with
  | ']' :: '[' :: rest => String.mk rest.reverse
  | _ => s

mutual

/-- `JsonToFlattenedTsConverter.generateObjectBody` (lines 141-204) over
the heap model: null literal; empty arrays short-circuit to `{}[]`;
primitive-only arrays go to the classifier; arrays with an object use
the first element's inlined shape; primitives render their `typeof`;
records are guarded by the visited set (a revisit renders `any`), and
the source's delete-after-processing corresponds to the caller
continuing with its own visited list.  `getType` (lines 214-221)
delegates to this function identically in both of its branches and is
therefore inlined.  Recursion is bounded by explicit fuel. -/
def generateObjectBodyF (opts : ConvertOptions) (h : Heap) :
    Nat → List Nat → HValue → Nat → Option String
  | 0, _, _, _ => Option.none
  | fuel + 1, visited, obj, indentLevel =>
    match obj with
    | .null => some "null"
    | .arr [] => some "\x7b\x7d[]"
    | .arr (x :: xs) =>
      if (x :: xs).all isPrimitiveItemH then
        some (detectTypeFromArray (hToJsValList (x :: xs))
          (opts.arrayMaxTupleSize.getD 10) (opts.arrayMinTupleSize.getD 2))
      else
        match generateObjectBodyF opts h fuel visited x indentLevel with
        | Option.none => Option.none
        | some elementType => some (elementType ++ "[]")
    | .ref id =>
      if visited.contains id then some "any"
      else
        let flds := (heapFind h id).getD []
          -- a reference always resolves on the closed heaps of interest
        match renderFieldsF opts h fuel (id :: visited) flds indentLevel with
        | Option.none => Option.none
        | some body =>
          if flds.isEmpty then some "\x7b\x7d"
          else
            some ("\x7b\n" ++ jsTrimEnd body ++ "\n"
              ++ indentStr indentLevel ++ "\x7d")
    | v => some (typeofTagH v)

/-- The property loop of `generateObjectBody` (lines 188-192): one line
`nextIndent key: type;` per field, each field type resolved one
indentation level deeper. -/
def renderFieldsF (opts : ConvertOptions) (h : Heap) :
    Nat → List Nat → List (String × HValue) → Nat → Option String
  | 0, _, _, _ => Option.none
  | _ + 1, _, [], _ => some ""
  | fuel + 1, visited, (key, value) :: rest, indentLevel =>
    match generateObjectBodyF opts h fuel visited value (indentLevel + 1) with
    | Option.none => Option.none
    | some ty =>
      match renderFieldsF opts h fuel visited rest indentLevel with
      | Option.none => Option.none
      | some restBody =>
        some (indentStr (indentLevel + 1) ++ suggestPropertyName key ++ ": "
          ++ ty ++ ";\n" ++ restBody)

end

/-- `JsonToFlattenedTsConverter.convertJson` (lines 118-131): a non-object
root renders as an empty interface regardless of any option; an object
root is rendered by `generateObjectBody`, trimmed, and a trailing `[]`
(arising from an array root) is stripped. -/
def convertJsonFlat (fuel : Nat) (opts : ConvertOptions) (h : Heap)
    (jsonData : HValue) (interfaceName : String) (exportType : ExportType) :
    Option String :=
  let exports := if exportType != .none then "export " else ""
  match jsonData with
  | .ref _ | .arr _ =>
    match generateObjectBodyF opts h fuel [] jsonData 0 with
    | Option.none => Option.none
    | some body0 =>
      some (exports ++ stripTrailingBrackets
        ("interface " ++ interfaceName ++ " " ++ jsTrim body0))
  | _ => some (exports ++ "interface " ++ interfaceName ++ " \x7b\x7d")

/-- Conversion state of the heap-model Referenced converter: the
interface table together with the visited record identities (the
`WeakSet`, which this generation never removes from). -/
structure StRef where
  interfaces : IfaceTable
  visited : List Nat

mutual

/-- Body of `JsonToTsConverter.generateInterface` after the visited
guard (JsonToTsConverter.ts lines 151-164), shared between record
references and a root array (whose identity cannot be re-reached and
therefore needs no guard). -/
def genInterfaceCoreR (opts : ConvertOptions) (h : Heap) :
    Nat → StRef → List (String × HValue) → String → Bool → Option StRef
  | 0, _, _, _, _ => Option.none
  | fuel + 1, st, entries, interfaceName, appendExport =>
    if tableHas st.interfaces interfaceName then some st
    else
      match genBodyR opts h fuel st entries appendExport with
      | Option.none => Option.none
      | some (body, st1) =>
        some ⟨tableSet st1.interfaces interfaceName
          ((if appendExport then "export " else "") ++ "interface "
            ++ interfaceName ++ " \x7b\n" ++ jsTrimEnd body ++ "\n\x7d"),
          st1.visited⟩

/-- `JsonToTsConverter.generateInterface` (lines 142-165) over the heap
model: a record already in the visited set is skipped outright (state
unchanged); otherwise it is marked visited and its interface body is
generated. -/
def genInterfaceR (opts : ConvertOptions) (h : Heap) :
    Nat → StRef → Nat → String → Bool → Option StRef
  | 0, _, _, _, _ => Option.none
  | fuel + 1, st, id, interfaceName, appendExport =>
    if st.visited.contains id then some st
    else
      genInterfaceCoreR opts h fuel ⟨st.interfaces, id :: st.visited⟩
        ((heapFind h id).getD []) interfaceName appendExport

/-- The property loop of the heap-model `generateInterface`. -/
def genBodyR (opts : ConvertOptions) (h : Heap) :
    Nat → StRef → List (String × HValue) → Bool → Option (String × StRef)
  | 0, _, _, _ => Option.none
  | _ + 1, st, [], _ => some ("", st)
  | fuel + 1, st, (key, value) :: rest, appendExport =>
    match getTypeR opts h fuel st value (capitalizeKey key) appendExport with
    | Option.none => Option.none
    | some (ty, st1) =>
      match genBodyR opts h fuel st1 rest appendExport with
      | Option.none => Option.none
      | some (restBody, st2) =>
        some ("  " ++ key ++ ": " ++ ty ++ ";\n" ++ restBody, st2)

/-- `JsonToTsConverter.getType` (lines 180-210) over the heap model. -/
def getTypeR (opts : ConvertOptions) (h : Heap) :
    Nat → StRef → HValue → String → Bool → Option (String × StRef)
  | 0, _, _, _, _ => Option.none
  | fuel + 1, st, value, parentKey, appendExport =>
    match value with
    | .null => some ("null", st)
    | .arr xs =>
      let arrayType := detectTypeFromArray (hToJsValList xs)
        (opts.arrayMaxTupleSize.getD 10) (opts.arrayMinTupleSize.getD 2)
      if xs.any isRefB then
        match xs.find? isRefB with
        | some (.ref fid) =>
          let interfaceName := capitalizeKey parentKey
          match genInterfaceR opts h fuel st fid interfaceName
              appendExport with
          | Option.none => Option.none
          | some st1 => some (interfaceName ++ "[]", st1)
        | _ => some (arrayType, st)
          -- unreachable: the `any` guard guarantees a record witness
      else some (arrayType, st)
    | .ref id =>
      let interfaceName := capitalizeKey parentKey
      match genInterfaceR opts h fuel st id interfaceName appendExport with
      | Option.none => Option.none
      | some st1 => some (interfaceName, st1)
    | v => some (typeofTagH v, st)

end

/-- `JsonToTsConverter.convertJson` (lines 115-129) over the heap model,
with the declaration list exposed before joining. -/
def convertJsonRefDecls (fuel : Nat) (opts : ConvertOptions) (h : Heap)
    (jsonData : HValue) (rootInterfaceName : String)
    (exportType : ExportType) : Option IfaceTable :=
  match jsonData with
  | .ref id =>
    match genInterfaceR opts h fuel ⟨[], []⟩ id rootInterfaceName
        (exportType == .all) with
    | Option.none => Option.none
    | some st => some st.interfaces.reverse
  | .arr xs =>
    match genInterfaceCoreR opts h fuel ⟨[], []⟩
        (enumHIdx 0 xs) rootInterfaceName (exportType == .all) with
    | Option.none => Option.none
    | some st => some st.interfaces.reverse
  | _ =>
    some [(rootInterfaceName,
      (if exportType != .none then "export " else "") ++ "interface "
        ++ rootInterfaceName ++ " \x7b\n  [p: string]: unknown;\n\x7d")]
where
  enumHIdx : Nat → List HValue → List (String × HValue)
    | _, [] => []
    | i, x :: xs => (toString i, x) :: enumHIdx (i + 1) xs

/-- The joined output text of the heap-model `convertJson`. -/
def convertJsonRef (fuel : Nat) (opts : ConvertOptions) (h : Heap)
    (jsonData : HValue) (rootInterfaceName : String)
    (exportType : ExportType) : Option String :=
  (convertJsonRefDecls fuel opts h jsonData rootInterfaceName exportType).map
    (fun ds => String.intercalate "\n\n" (ds.map (·.2)))

/-- A record that directly contains itself: `a.self = a`. -/
def selfHeap : Heap := [(0, [("self", .ref 0)])]

/-- A ring of `n` records, each holding the next under the key `child`,
the last pointing back to the first: `n` levels of genuine
self-reference. -/
def chainHeap (n : Nat) : Heap :=
  (List.range n).map (fun i => (i, [("child", .ref ((i + 1) % n))]))

/-- A declaration text is marked exported when it starts with the
`export ` keyword. -/
def isExportedDecl (s : String) : Bool :=
  "export ".data.isPrefixOf s.data

/-- All tags in the list equal its first tag (the claim-side reading of
"all tags are identical"). -/
def allEqHead (ts : List String) : Bool :=
  ts.all (fun t => t == ts.headD "")

/-- The guard `typeof jsonData !== 'object' || jsonData === null` of the
converters' `convertJson`, on heap values. -/
def isNonObjectRootH : HValue → Bool
  | .arr _ => false
  | .ref _ => false
  | _ => true

/-- The guard `typeof jsonData !== 'object' || jsonData === null` of the
converters' `convertJson`, on tree values. -/
def isNonObjectRootJ : JsVal → Bool
  | .arr _ => false
  | .obj _ => false
  | _ => true

/-- The basic nested-object scenario input
`{"user":{"name":"John","age":30}}`. -/
def personInput : JsVal :=
  .obj [("user", .obj [("name", .str "John"), ("age", .num 30)])]

mutual

/-- An executable structural size for tree values, used as a fuel
bound. -/
def jsValSize : JsVal → Nat
  | .arr xs => 1 + jsValSizeL xs
  | .obj fields => 1 + jsValSizeP fields
  | _ => 1

/-- Size of a plain value list. -/
def jsValSizeL : List JsVal → Nat
  | [] => 1
  | x :: xs => 2 + jsValSize x + jsValSizeL xs

/-- Size of a key/value entry list. -/
def jsValSizeP : List (String × JsVal) → Nat
  | [] => 1
  | (_, v) :: rest => 2 + jsValSize v + jsValSizeP rest

end

/-- Fuel that provably suffices for a complete part_006 conversion of a
tree value (see the sufficiency lemma below). -/
def v2Fuel (v : JsVal) : Nat :=
  jsValSizeP (jsEntries v) + 2

mutual

/-- An executable structural size for heap values, used in fuel bounds
(a record reference carries the constant overhead of opening its
interface). -/
def hvSize : HValue → Nat
  | .arr xs => 1 + hvSizeL xs
  | .ref _ => 2
  | _ => 1

/-- Size of a heap-value list. -/
def hvSizeL : List HValue → Nat
  | [] => 1
  | x :: xs => 2 + hvSize x + hvSizeL xs

end

/-- Size of a heap-record field list. -/
def hvListSize : List (String × HValue) → Nat
  | [] => 1
  | (_, v) :: rest => 2 + hvSize v + hvListSize rest

/-- Fuel weight of one heap record: a constant overhead plus the size of
its fields. -/
def heapNodeWeight (h : Heap) (id : Nat) : Nat :=
  2 + hvListSize ((heapFind h id).getD [])

/-- Total fuel weight of the records not yet visited. -/
def heapBudget (h : Heap) (visited : List Nat) : Nat :=
  (((h.map Prod.fst).dedup.filter
    (fun i => !(visited.contains i))).map (heapNodeWeight h)).sum

/-- Invariant of the interface table during a part_006 conversion with a
fixed `appendExport` flag: keys are distinct, and every stored content
carries the `export ` marker exactly when the flag is set. -/
def tableInv (exp : Bool) (tbl : IfaceTable) : Prop :=
  (tbl.map Prod.fst).Nodup ∧ ∀ e ∈ tbl, isExportedDecl e.2 = exp

/-- C1: for input `{"user":{"name":"John","age":30}}` with root name
`Person` and export policy `all`, the Referenced converter emits the
`Person` declaration BEFORE the `User` declaration — the reversal of
registration order places the root first — refuting the claimed
`User`-before-`Person` emission order. -/
theorem c1_user_first_counterexample :
    (convertJsonV1Decls 10 {} personInput "Person" .all).map
        (fun ds => ds.map Prod.fst) = some ["Person", "User"] ∧
      some ["Person", "User"] ≠ some ["User", "Person"] := by
  decide

/-- C1 (amended): for input `{"user":{"name":"John","age":30}}` with root
name `Person` and export policy `all`, the Referenced convert produces
exactly two declarations — `User` with body `name: string; age: number`
and `Person` with body `user: User` — with the Person declaration
emitted before the User declaration in the output text, and both
declarations marked exported. -/
theorem c1_basic_scenario :
    convertJsonV1Decls 10 {} personInput "Person" .all
        = some [("Person", "export interface Person \x7b\n  user: User;\n\x7d"),
          ("User",
            "export interface User \x7b\n  name: string;\n  age: number;\n\x7d")]
      ∧ convertJsonV1 10 {} personInput "Person" .all
        = some ("export interface Person \x7b\n  user: User;\n\x7d\n\n"
            ++ "export interface User \x7b\n  name: string;\n  age: number;\n\x7d")
      ∧ (convertJsonV1Decls 10 {} personInput "Person" .all).map
          (fun ds => ds.all (fun d => isExportedDecl d.2)) = some true := by
  refine ⟨by decide, by decide, by decide⟩

/-- C3: inside the tuple-size band, the tuple branch collapses nested
arrays to the tag `object`, while the finer per-element classification
tags them `array` — so the emitted tuple does not literally mirror the
per-position tags, refuting the claim at the concrete input
`[[1],[2]]`. -/
theorem c3_tuple_mirror_counterexample :
    detectTypeFromArray [.arr [.num 1], .arr [.num 2]] 10 2
        = "[object, object]"
      ∧ [JsVal.arr [.num 1], JsVal.arr [.num 2]].map fineTag
        = ["array", "array"]
      ∧ "[object, object]"
        ≠ "[" ++ String.intercalate ", " ["array", "array"] ++ "]" := by
  refine ⟨by decide, by decide, by decide⟩

/-- C7: with strict mode enabled, the Flattened converter still renders a
non-object root as the empty interface `interface Root {}` — not as a
type alias to the literal primitive type of the root, nor to `null` —
refuting the claim at the concrete root value `42`. -/
theorem c7_flat_strict_counterexample :
    convertJsonFlat 10 { strict := some true } [] (.num 42) "Root" .root
        = some "export interface Root \x7b\x7d"
      ∧ some "export interface Root \x7b\x7d"
          ≠ some "export type Root = number;"
      ∧ some "export interface Root \x7b\x7d"
          ≠ some "export type Root = null;" := by
  refine ⟨by decide, by decide, by decide⟩

/-- C9: under the Flattened strategy every empty-array value renders as
`{}[]` — the empty-array short-circuit fires before the Array/Tuple
Classifier, which would itself return `any[]` for an empty array — and a
property holding an empty array is rendered with exactly that type. -/
theorem c9_empty_array_short_circuit :
    (∀ (opts : ConvertOptions) (h : Heap) (fuel : Nat) (visited : List Nat)
        (lvl : Nat),
      generateObjectBodyF opts h (fuel + 1) visited (.arr []) lvl
        = some "\x7b\x7d[]")
      ∧ (∀ maxT minT : Nat, detectTypeFromArray [] maxT minT = "any[]")
      ∧ convertJsonFlat 10 {} [(0, [("xs", .arr []), ("n", .num 1)])]
          (.ref 0) "Root" .root
        = some "export interface Root \x7b\n  xs: \x7b\x7d[];\n  n: number;\n\x7d" := by
  refine ⟨fun opts h fuel visited lvl => rfl, fun maxT minT => rfl, by decide⟩

/-- C4: for every non-empty array whose length falls outside the tuple
band, the classifier collects the distinct `typeof` tags with
object-typed elements excluded and returns `tag[]` when exactly one tag
remains, `any[]` otherwise; in particular 15 numbers under the default
bounds yield `number[]`. -/
theorem c4_oversize_fallback :
    (∀ (values : List JsVal) (maxT minT : Nat),
      values.length ≠ 0 → (values.length > maxT ∨ values.length < minT) →
      detectTypeFromArray values maxT minT =
        (let tags := jsSetList ((values.map typeofTag).filter (· ≠ "object"))
         if tags.length = 1 then tags.headD "" ++ "[]" else "any[]"))
      ∧ detectTypeFromArray (List.replicate 15 (.num 0)) 10 2
        = "number[]" := by
  constructor
  · intro values maxT minT hne hband
    unfold detectTypeFromArray
    rw [if_neg hne, if_pos hband]
  · decide

/-- Witness for C4 at the concrete 15-number array. -/
theorem c4_oversize_fallback_witness :
    detectTypeFromArray (List.replicate 15 (.num 0)) 10 2 = "number[]" := by
  have h := c4_oversize_fallback.1 (List.replicate 15 (.num 0)) 10 2
    (by decide) (by decide)
  rw [h]
  decide

/-- C5: the parse helper classifies failures by the first failing stage —
a null input and an empty/whitespace-only input yield `InvalidInput`; a
first non-whitespace character outside the JSON start set yields
`InvalidFormat` naming the offending character; a structural parse
failure yields `ParseFailed` carrying the parser-reported position and a
snippet of the (trimmed) input truncated to its first 97 characters with
an ellipsis when the input is longer than 100 characters. -/
theorem c5_parse_stage_classification :
    ∀ (parser : String → Except String JsVal) (s : String),
      (jsonParse parser (.value .null)).error = some .invalidInput
      ∧ (jsTrim s = "" →
          (jsonParse parser (.text s)).error = some .invalidInput)
      ∧ (jsTrim s ≠ "" → isJsonStartChar (jsFirstChar (jsTrim s)) = false →
          (jsonParse parser (.text s)).error = some .invalidFormat
          ∧ (jsonParse parser (.text s)).details
            = some ("Input starts with \x27"
                ++ String.mk [jsFirstChar (jsTrim s)]
                ++ "\x27, expected JSON value"))
      ∧ (∀ msg, jsTrim s ≠ "" →
          isJsonStartChar (jsFirstChar (jsTrim s)) = true →
          parser (jsTrim s) = .error msg →
          (jsonParse parser (.text s)).error = some .parseFailed
          ∧ (jsonParse parser (.text s)).details
            = some ("at position " ++ extractPosition msg ++ ": " ++ msg
                ++ "\nInput: "
                ++ (if (jsTrim s).length > 100 then jsTake (jsTrim s) 97
                      ++ "..."
                    else jsTrim s))) := by
  intro parser s
  refine ⟨rfl, ?_, ?_, ?_⟩
  · intro h
    simp [jsonParse, parseTextual, h]
  · intro h1 h2
    constructor <;> simp [jsonParse, parseTextual, h1, h2]
  · intro msg h1 h2 h3
    constructor <;> simp [jsonParse, parseTextual, h1, h2, h3]

/-- Witness for C5 at the scenario input of a truncated JSON object
text, with a parser reporting a position-bearing error message. -/
theorem c5_parse_stage_classification_witness :
    (jsonParse (fun t => .error ("Unexpected end of JSON input at position "
        ++ toString t.length)) (.text "\x7b\x22name\x22: \x22John\x22")).error
        = some .parseFailed
      ∧ (jsonParse (fun t => .error ("Unexpected end of JSON input at position "
          ++ toString t.length))
          (.text "\x7b\x22name\x22: \x22John\x22")).details
        = some ("at position 15: Unexpected end of JSON input at position 15"
            ++ "\nInput: \x7b\x22name\x22: \x22John\x22") := by
  have h := (c5_parse_stage_classification
    (fun t => .error ("Unexpected end of JSON input at position "
      ++ toString t.length)) "\x7b\x22name\x22: \x22John\x22").2.2.2
    "Unexpected end of JSON input at position 15" (by decide) (by decide)
    rfl
  refine ⟨h.1, ?_⟩
  rw [h.2]
  decide

/-- C6: the validated convert entry point returns null (never throws)
when JSON parsing fails, and an invalid caller-supplied root interface
name is the sole condition surfaced as a hard (thrown) error. -/
theorem c6_error_surface :
    ∀ (parser : String → Except String JsVal)
      (convertFn : JsVal → String → ExportType → String) (input : JsInputP)
      (name : String) (et : ExportType),
      (isValidIdentifier name = false →
        convertBaseTop parser convertFn input name et
          = .thrown ("Invalid interface name: \x22" ++ name
              ++ "\x22. Must be a valid TypeScript identifier."))
      ∧ (isValidIdentifier name = true →
          (parseJsonCB parser input).error.isSome = true →
          convertBaseTop parser convertFn input name et
            = .returned Option.none)
      ∧ (isValidIdentifier name = true →
          ∀ msg, convertBaseTop parser convertFn input name et
            ≠ .thrown msg) := by
  intro parser convertFn input name et
  refine ⟨?_, ?_, ?_⟩
  · intro h
    simp [convertBaseTop, h]
  · intro h1 h2
    simp [convertBaseTop, h1, h2]
  · intro h1 msg
    simp only [convertBaseTop, h1, Bool.not_true]
    rw [if_neg (by simp)]
    split
    · simp
    · split <;> simp

/-- Witness for C6: a valid root name with a failing parser yields a null
return, and an invalid root name yields the thrown error. -/
theorem c6_error_surface_witness :
    convertBaseTop (fun _ => .error "boom") (fun _ _ _ => "out")
        (.text "\x7bbad") "Person" .root = .returned Option.none
      ∧ convertBaseTop (fun _ => .error "boom") (fun _ _ _ => "out")
        (.text "\x7bbad") "1Bad" .root
        = .thrown ("Invalid interface name: \x221Bad\x22."
            ++ " Must be a valid TypeScript identifier.") := by
  constructor
  · exact (c6_error_surface (fun _ => .error "boom") (fun _ _ _ => "out")
      (.text "\x7bbad") "Person" .root).2.1 (by decide) (by decide)
  · have h := (c6_error_surface (fun _ => .error "boom") (fun _ _ _ => "out")
      (.text "\x7bbad") "1Bad" .root).1 (by decide)
    rw [h]
    decide

/-- C10: the original parse helper rejects every falsy input value, and
the original convert entry point rejects every falsy parsed value — so
syntactically valid JSON texts such as `false`, `0` or `""` convert to
null. -/
theorem c10_falsy_parse_rejection :
    ∀ (parser : String → Except String JsVal) (opts : ConvertOptions)
      (name : String) (et : ExportType) (fuel : Nat),
      (∀ v, jsFalsy v = true → parseJsonOld parser (.value v) = Option.none)
      ∧ (∀ s v, parser s = .ok v → jsFalsy v = true →
          convertTopV1 fuel parser opts (.text s) name et
            = Option.none) := by
  intro parser opts name et fuel
  constructor
  · intro v hv
    simp [parseJsonOld, hv]
  · intro s v hp hv
    unfold convertTopV1 parseJsonOld
    by_cases hs : s = ""
    · simp [hs]
    · by_cases ht : jsTrim s = ""
      · simp [hs, ht]
      · simp [hs, ht, hp, hv]

/-- Witness for C10: the texts `false`, `0` and `""` are parsed to falsy
values and convert to null. -/
theorem c10_falsy_parse_rejection_witness :
    convertTopV1 5 (fun s => if s = "false" then .ok (.bool false)
        else if s = "0" then .ok (.num 0)
        else if s = "\x22\x22" then .ok (.str "") else .error "other")
      {} (.text "false") "RootObject" .root = Option.none
    ∧ convertTopV1 5 (fun s => if s = "false" then .ok (.bool false)
        else if s = "0" then .ok (.num 0)
        else if s = "\x22\x22" then .ok (.str "") else .error "other")
      {} (.text "0") "RootObject" .root = Option.none
    ∧ convertTopV1 5 (fun s => if s = "false" then .ok (.bool false)
        else if s = "0" then .ok (.num 0)
        else if s = "\x22\x22" then .ok (.str "") else .error "other")
      {} (.text "\x22\x22") "RootObject" .root = Option.none := by
  refine ⟨?_, ?_, ?_⟩
  · exact (c10_falsy_parse_rejection _ {} "RootObject" .root 5).2 "false"
      (.bool false) rfl (by decide)
  · exact (c10_falsy_parse_rejection _ {} "RootObject" .root 5).2 "0"
      (.num 0) rfl (by decide)
  · exact (c10_falsy_parse_rejection _ {} "RootObject" .root 5).2 "\x22\x22"
      (.str "") rfl (by decide)

/-- Membership is invariant under JavaScript-set deduplication. -/
theorem mem_jsSetList {a : String} : ∀ {l : List String},
    a ∈ jsSetList l ↔ a ∈ l := by
  intro l
  induction l with
  | nil => simp [jsSetList]
  | cons x xs ih =>
    simp only [jsSetList, List.mem_cons, List.mem_filter, ih]
    by_cases hax : a = x
    · simp [hax]
    · simp [hax, bne_iff_ne]

/-- Deduplication preserves the first element. -/
theorem headD_jsSetList : ∀ l : List String,
    (jsSetList l).headD "" = l.headD "" := by
  intro l
  cases l <;> rfl

/-- For a non-empty list, the deduplicated list is a singleton exactly
when every element equals the first. -/
theorem jsSetList_length_one_iff : ∀ (l : List String), l ≠ [] →
    ((jsSetList l).length = 1 ↔ allEqHead l = true) := by
  intro l hne
  match l with
  | x :: xs =>
    simp only [jsSetList, allEqHead, List.length_cons,
      Nat.add_left_eq_self, List.length_eq_zero, List.filter_eq_nil_iff,
      List.all_cons, List.headD_cons, beq_self_eq_true, Bool.true_and,
      List.all_eq_true, bne_iff_ne, ne_eq, Decidable.not_not, beq_iff_eq]
    constructor
    · intro h a ha
      exact h a (mem_jsSetList.mpr ha)
    · intro h a ha
      exact h a (mem_jsSetList.mp ha)

/-- When every element equals the head, containment reduces to a head
test. -/
theorem contains_of_allEqHead : ∀ (l : List String) (t : String),
    l ≠ [] → allEqHead l = true → (l.contains t ↔ l.headD "" = t) := by
  intro l t hne hall
  match l with
  | x :: xs =>
    simp only [allEqHead, List.all_eq_true, beq_iff_eq, List.headD_cons]
      at hall
    show (x :: xs).elem t = true ↔ _
    rw [List.elem_iff]
    simp only [List.mem_cons, List.headD_cons]
    constructor
    · intro h
      rcases h with h | h
      · exact h.symm
      · exact (hall t (List.mem_cons_of_mem x h)).symm
    · intro h
      exact Or.inl h.symm

/-- Containment in the deduplicated list is containment in the source. -/
theorem contains_jsSetList : ∀ (l : List String) (t : String),
    ((jsSetList l).contains t = true) ↔ t ∈ l := by
  intro l t
  show (jsSetList l).elem t = true ↔ _
  rw [List.elem_iff]
  exact mem_jsSetList

/-- The head of a non-empty list is a member. -/
theorem headD_mem_of_ne_nil : ∀ (l : List String), l ≠ [] →
    l.headD "" ∈ l := by
  intro l hne
  match l with
  | x :: xs => simp

/-- C3 (amended): inside the inclusive tuple band, one tag per element is
computed by the finer classification; if all tags are identical and the
tag is neither `object` nor `array` the result is the homogeneous array
type `tag[]`, never a tuple; otherwise the result is a tuple whose
positional components are each element's tag under the coarser mapping
that collapses nested arrays into `object`, repeats included and
uncompressed. -/
theorem c3_inband_classification :
    ∀ (values : List JsVal) (maxT minT : Nat),
      values.length ≠ 0 → minT ≤ values.length → values.length ≤ maxT →
      detectTypeFromArray values maxT minT =
        (if allEqHead (values.map fineTag) = true
            ∧ (values.map fineTag).headD "" ≠ "object"
            ∧ (values.map fineTag).headD "" ≠ "array" then
          (values.map fineTag).headD "" ++ "[]"
        else
          "[" ++ String.intercalate ", " (values.map coarseTag) ++ "]") := by
  intro values maxT minT h0 hmin hmax
  have hne : values.map fineTag ≠ [] := by
    intro hcon
    apply h0
    simpa using congrArg List.length hcon
  unfold detectTypeFromArray
  rw [if_neg h0, if_neg (by omega)]
  refine if_congr ?_ (by rw [headD_jsSetList]) rfl
  constructor
  · rintro ⟨hu1, hobj, harr⟩
    have hall := (jsSetList_length_one_iff (values.map fineTag) hne).mp hu1
    refine ⟨hall, ?_, ?_⟩
    · intro hcon
      apply hobj
      rw [contains_jsSetList]
      rw [← hcon]
      exact headD_mem_of_ne_nil _ hne
    · intro hcon
      apply harr
      rw [contains_jsSetList]
      rw [← hcon]
      exact headD_mem_of_ne_nil _ hne
  · rintro ⟨hall, hobj, harr⟩
    refine ⟨(jsSetList_length_one_iff (values.map fineTag) hne).mpr hall,
      ?_, ?_⟩
    · intro hcon
      exact hobj ((contains_of_allEqHead (values.map fineTag) "object" hne
        hall).mp (by
          show (values.map fineTag).elem "object" = true
          rw [List.elem_iff]
          exact (contains_jsSetList _ _).mp hcon))
    · intro hcon
      exact harr ((contains_of_allEqHead (values.map fineTag) "array" hne
        hall).mp (by
          show (values.map fineTag).elem "array" = true
          rw [List.elem_iff]
          exact (contains_jsSetList _ _).mp hcon))

/-- Witness for C3 at the mixed-array scenario `[1,"two",true]` with the
default bounds, and at a homogeneous in-band array. -/
theorem c3_inband_classification_witness :
    detectTypeFromArray [.num 1, .str "two", .bool true] 10 2
        = "[number, string, boolean]"
      ∧ detectTypeFromArray [.num 1, .num 2] 10 2 = "number[]" := by
  constructor
  · have h := c3_inband_classification [.num 1, .str "two", .bool true] 10 2
      (by decide) (by decide) (by decide)
    rw [h]
    decide
  · have h := c3_inband_classification [.num 1, .num 2] 10 2
      (by decide) (by decide) (by decide)
    rw [h]
    decide

/-- C7 (amended): the Flattened strategy renders a non-object, non-array
root as the empty interface declaration regardless of strict mode; the
strict-mode direct type alias for a non-object root belongs to the
Referenced strategy, and that alias is always to `null`, irrespective of
the root's literal primitive type. -/
theorem c7_nonobject_root_rendering :
    ∀ (opts : ConvertOptions) (h : Heap) (name : String) (et : ExportType)
      (v : HValue) (v2 : JsVal) (fuel : Nat),
      isNonObjectRootH v = true → isNonObjectRootJ v2 = true →
      opts.strictOn = true →
      convertJsonFlat fuel opts h v name et
        = some ((if et != .none then "export " else "") ++ "interface "
            ++ name ++ " \x7b\x7d")
      ∧ convertJsonV2Decls fuel opts v2 name et
        = some [(name, (if et != .none then "export " else "") ++ "type "
            ++ name ++ " = null;")] := by
  intro opts h name et v v2 fuel hv hv2 hstrict
  constructor
  · cases v <;> simp_all [convertJsonFlat, isNonObjectRootH]
  · cases v2 <;> simp_all [convertJsonV2Decls, isNonObjectRootJ]

/-- Witness for C7 (amended) at a string root under strict mode. -/
theorem c7_nonobject_root_rendering_witness :
    convertJsonFlat 5 { strict := some true } [] (.str "hi") "Root" .all
        = some "export interface Root \x7b\x7d"
      ∧ convertJsonV2Decls 5 { strict := some true } (.str "hi") "Root" .all
        = some [("Root", "export type Root = null;")] := by
  have h := c7_nonobject_root_rendering { strict := some true } [] "Root"
    .all (.str "hi") (.str "hi") 5 (by decide) (by decide) (by decide)
  constructor
  · rw [h.1]
    decide
  · rw [h.2]
    decide

/-- A text prefixed with `export ` is marked exported. -/
theorem isExportedDecl_export_append (a : String) :
    isExportedDecl ("export " ++ a) = true := by
  show List.isPrefixOf "export ".data ("export " ++ a).data = true
  rw [String.data_append]
  simp only [List.isPrefixOf_iff_prefix]
  exact List.prefix_append _ _

/-- A text starting with `interface ` is not marked exported. -/
theorem not_exported_interface_append (a : String) :
    isExportedDecl ("interface " ++ a) = false := by
  show List.isPrefixOf "export ".data ("interface " ++ a).data = false
  rw [String.data_append]
  rw [show "export ".data = 'e' :: "xport ".data from rfl]
  rw [show "interface ".data = 'i' :: "nterface ".data from rfl]
  rw [List.cons_append, List.isPrefixOf_cons₂]
  rw [show (('e' == 'i') = false) from rfl, Bool.false_and]

/-- A text starting with `type ` is not marked exported. -/
theorem not_exported_type_append (a : String) :
    isExportedDecl ("type " ++ a) = false := by
  show List.isPrefixOf "export ".data ("type " ++ a).data = false
  rw [String.data_append]
  rw [show "export ".data = 'e' :: "xport ".data from rfl]
  rw [show "type ".data = 't' :: "ype ".data from rfl]
  rw [List.cons_append, List.isPrefixOf_cons₂]
  rw [show (('e' == 't') = false) from rfl, Bool.false_and]

/-- Prepending the empty string is the identity. -/
theorem str_empty_append (s : String) : "" ++ s = s := by
  apply String.ext
  rw [String.data_append]
  rfl

/-- Table membership of the key after `Map.set`. -/
theorem tableSet_key_mem (t : IfaceTable) (n c : String) :
    n ∈ (tableSet t n c).map Prod.fst := by
  induction t with
  | nil => simp [tableSet]
  | cons e rest ih =>
    obtain ⟨k, v⟩ := e
    by_cases hk : k = n
    · simp [tableSet, hk]
    · simp only [tableSet, beq_iff_eq, if_neg hk, List.map_cons,
        List.mem_cons]
      exact Or.inr ih

/-- `tableHas` is key membership. -/
theorem tableHas_iff (t : IfaceTable) (n : String) :
    tableHas t n = true ↔ n ∈ t.map Prod.fst := by
  induction t with
  | nil => simp [tableHas]
  | cons e rest ih =>
    simp only [tableHas, List.any_cons, Bool.or_eq_true, beq_iff_eq,
      List.map_cons, List.mem_cons]
    rw [← tableHas]
    rw [ih]
    constructor
    · rintro (h | h)
      · exact Or.inl h.symm
      · exact Or.inr h
    · rintro (h | h)
      · exact Or.inl h.symm
      · exact Or.inr h

/-- `Map.set` on a fresh key appends it. -/
theorem tableSet_keys_of_not_has (t : IfaceTable) (n c : String)
    (h : tableHas t n = false) :
    (tableSet t n c).map Prod.fst = t.map Prod.fst ++ [n] := by
  induction t with
  | nil => simp [tableSet]
  | cons e rest ih =>
    obtain ⟨k, v⟩ := e
    simp only [tableHas, List.any_cons, Bool.or_eq_false_iff, beq_eq_false_iff_ne,
      ne_eq] at h
    obtain ⟨hk, hrest⟩ := h
    rw [← tableHas] at hrest
    simp only [tableSet, beq_iff_eq, if_neg (by simpa using hk),
      List.map_cons, List.cons_append, List.cons.injEq]
    exact ⟨trivial, ih hrest⟩

/-- `Map.set` on an existing key keeps the key list. -/
theorem tableSet_keys_of_has (t : IfaceTable) (n c : String)
    (h : tableHas t n = true) :
    (tableSet t n c).map Prod.fst = t.map Prod.fst := by
  induction t with
  | nil => simp [tableHas] at h
  | cons e rest ih =>
    obtain ⟨k, v⟩ := e
    by_cases hk : k = n
    · simp [tableSet, hk]
    · simp only [tableHas, List.any_cons, Bool.or_eq_true, beq_iff_eq] at h
      rcases h with h | h
      · exact absurd h hk
      · rw [← tableHas] at h
        simp only [tableSet, beq_iff_eq, if_neg hk, List.map_cons,
          List.cons.injEq]
        exact ⟨trivial, ih h⟩

/-- Every entry after `Map.set` is an old entry or carries the new
content. -/
theorem tableSet_mem_cases (t : IfaceTable) (n c : String) :
    ∀ e ∈ tableSet t n c, e ∈ t ∨ e.2 = c := by
  induction t with
  | nil =>
    intro e he
    simp only [tableSet, List.mem_singleton] at he
    subst he
    exact Or.inr rfl
  | cons f rest ih =>
    obtain ⟨k, v⟩ := f
    intro e he
    by_cases hk : k = n
    · simp only [tableSet, beq_iff_eq, if_pos hk, List.mem_cons] at he
      rcases he with he | he
      · subst he
        exact Or.inr rfl
      · exact Or.inl (List.mem_cons_of_mem _ he)
    · simp only [tableSet, beq_iff_eq, if_neg hk, List.mem_cons] at he
      rcases he with he | he
      · subst he
        exact Or.inl (List.mem_cons_self _ _)
      · rcases ih e he with h | h
        · exact Or.inl (List.mem_cons_of_mem _ h)
        · exact Or.inr h

/-- The table invariant survives `Map.set` with a content whose export
marker matches the flag. -/
theorem tableInv_tableSet (exp : Bool) (tbl : IfaceTable) (n c : String)
    (hinv : tableInv exp tbl) (hc : isExportedDecl c = exp) :
    tableInv exp (tableSet tbl n c) := by
  obtain ⟨hnd, hcontent⟩ := hinv
  constructor
  · by_cases hh : tableHas tbl n = true
    · rw [tableSet_keys_of_has _ _ c hh]
      exact hnd
    · rw [tableSet_keys_of_not_has _ _ c (by simpa using hh)]
      have hmem : n ∉ tbl.map Prod.fst := fun hm =>
        hh ((tableHas_iff _ _).mpr hm)
      rw [List.nodup_append]
      refine ⟨hnd, List.nodup_singleton n, ?_⟩
      intro a ha hb
      rw [List.mem_singleton] at hb
      subst hb
      exact hmem ha
  · intro e he
    rcases tableSet_mem_cases tbl n c e he with h | h
    · exact hcontent e h
    · rw [h]
      exact hc

/-- The generated interface content carries the export marker exactly
when the flag is set. -/
theorem content_marker (exp : Bool) (rest : String) :
    isExportedDecl ((if exp then "export " else "")
      ++ ("interface " ++ rest)) = exp := by
  cases exp with
  | true =>
    rw [if_pos rfl]
    exact isExportedDecl_export_append _
  | false =>
    rw [if_neg (by simp)]
    rw [String.empty_append]
    exact not_exported_interface_append _

/-- The empty table satisfies the invariant for any flag. -/
theorem tableInv_nil {exp : Bool} : tableInv exp [] :=
  ⟨List.nodup_nil, fun e he => absurd he (List.not_mem_nil e)⟩

/-- The table invariant is preserved by the three mutually recursive
part_006 generation functions, at every fuel level. -/
theorem v2TableInvAux : ∀ fuel : Nat,
    (∀ (opts : ConvertOptions) (tbl : IfaceTable)
        (entries : List (String × JsVal)) (name : String) (exp : Bool)
        (out : IfaceTable), tableInv exp tbl →
      genInterfaceV2 opts fuel tbl entries name exp = some out →
      tableInv exp out)
    ∧ (∀ (opts : ConvertOptions) (tbl : IfaceTable)
        (entries : List (String × JsVal)) (exp : Bool) (body : String)
        (out : IfaceTable), tableInv exp tbl →
      genBodyV2 opts fuel tbl entries exp = some (body, out) →
      tableInv exp out)
    ∧ (∀ (opts : ConvertOptions) (tbl : IfaceTable) (v : JsVal)
        (pk : String) (exp : Bool) (ty : String) (out : IfaceTable),
      tableInv exp tbl →
      getTypeV2 opts fuel tbl v pk exp = some (ty, out) →
      tableInv exp out) := by
  intro fuel
  induction fuel with
  | zero =>
    refine ⟨?_, ?_, ?_⟩
    · intro opts tbl entries name exp out _ heq
      simp [genInterfaceV2] at heq
    · intro opts tbl entries exp body out _ heq
      simp [genBodyV2] at heq
    · intro opts tbl v pk exp ty out _ heq
      simp [getTypeV2] at heq
  | succ n ih =>
    obtain ⟨ihGI, ihGB, ihGT⟩ := ih
    refine ⟨?_, ?_, ?_⟩
    · intro opts tbl entries name exp out hinv heq
      simp only [genInterfaceV2] at heq
      by_cases hh : tableHas tbl name = true
      · rw [if_pos hh] at heq
        obtain rfl : tbl = out := Option.some.inj heq
        exact hinv
      · rw [if_neg hh] at heq
        cases hgb : genBodyV2 opts n tbl entries exp with
        | none =>
          rw [hgb] at heq
          exact absurd heq (by simp)
        | some p =>
          obtain ⟨body, tbl1⟩ := p
          rw [hgb] at heq
          have heq2 : tableSet tbl1 name
              ((if exp then "export " else "") ++ "interface " ++ name
                ++ " \x7b\n" ++ jsTrimEnd body ++ "\n\x7d") = out :=
            Option.some.inj heq
          rw [← heq2]
          have hinv1 := ihGB opts tbl entries exp body tbl1 hinv hgb
          apply tableInv_tableSet exp tbl1 name _ hinv1
          simp only [String.append_assoc]
          exact content_marker exp _
    · intro opts tbl entries exp body out hinv heq
      match entries with
      | [] =>
        simp only [genBodyV2] at heq
        obtain ⟨rfl, rfl⟩ : "" = body ∧ tbl = out := by
          constructor <;> [exact congrArg Prod.fst (Option.some.inj heq);
            exact congrArg Prod.snd (Option.some.inj heq)]
        exact hinv
      | (key, value) :: rest =>
        simp only [genBodyV2] at heq
        cases hgt : getTypeV2 opts n tbl value (capitalizeKey key) exp with
        | none =>
          rw [hgt] at heq
          exact absurd heq (by simp)
        | some p =>
          obtain ⟨ty, tbl1⟩ := p
          rw [hgt] at heq
          dsimp only at heq
          cases hgb : genBodyV2 opts n tbl1 rest exp with
          | none =>
            rw [hgb] at heq
            exact absurd heq (by simp)
          | some q =>
            obtain ⟨restBody, tbl2⟩ := q
            rw [hgb] at heq
            obtain rfl : tbl2 = out :=
              congrArg Prod.snd (Option.some.inj heq)
            exact ihGB opts tbl1 rest exp restBody tbl2
              (ihGT opts tbl value (capitalizeKey key) exp ty tbl1 hinv hgt)
              hgb
    · intro opts tbl v pk exp ty out hinv heq
      simp only [getTypeV2] at heq
      cases htm : typeMapHit opts v with
      | some mapped =>
        rw [htm] at heq
        obtain rfl : tbl = out := congrArg Prod.snd (Option.some.inj heq)
        exact hinv
      | none =>
        rw [htm] at heq
        match v with
        | .arr (x :: xs) =>
          dsimp only at heq
          obtain rfl : tbl = out := congrArg Prod.snd (Option.some.inj heq)
          exact hinv
        | .obj fields =>
          dsimp only at heq
          cases hgi : genInterfaceV2 opts n tbl fields (capitalizeKey pk)
              exp with
          | none =>
            rw [hgi] at heq
            exact absurd heq (by simp)
          | some tbl1 =>
            rw [hgi] at heq
            obtain rfl : tbl1 = out :=
              congrArg Prod.snd (Option.some.inj heq)
            exact ihGI opts tbl fields (capitalizeKey pk) exp tbl1 hinv hgi
        | .null =>
          obtain rfl : tbl = out := congrArg Prod.snd (Option.some.inj heq)
          exact hinv
        | .undef =>
          obtain rfl : tbl = out := congrArg Prod.snd (Option.some.inj heq)
          exact hinv
        | .bool b =>
          obtain rfl : tbl = out := congrArg Prod.snd (Option.some.inj heq)
          exact hinv
        | .num m =>
          obtain rfl : tbl = out := congrArg Prod.snd (Option.some.inj heq)
          exact hinv
        | .str s =>
          obtain rfl : tbl = out := congrArg Prod.snd (Option.some.inj heq)
          exact hinv
        | .bigint m =>
          obtain rfl : tbl = out := congrArg Prod.snd (Option.some.inj heq)
          exact hinv
        | .arr [] =>
          obtain rfl : tbl = out := congrArg Prod.snd (Option.some.inj heq)
          exact hinv

/-- A successful interface generation leaves the requested name in the
table. -/
theorem genInterfaceV2_name_mem :
    ∀ (fuel : Nat) (opts : ConvertOptions) (tbl : IfaceTable)
      (entries : List (String × JsVal)) (name : String) (exp : Bool)
      (out : IfaceTable),
      genInterfaceV2 opts fuel tbl entries name exp = some out →
      name ∈ out.map Prod.fst := by
  intro fuel opts tbl entries name exp out heq
  match fuel with
  | 0 => simp [genInterfaceV2] at heq
  | n + 1 =>
    simp only [genInterfaceV2] at heq
    by_cases hh : tableHas tbl name = true
    · rw [if_pos hh] at heq
      obtain rfl : tbl = out := Option.some.inj heq
      exact (tableHas_iff _ _).mp hh
    · rw [if_neg hh] at heq
      cases hgb : genBodyV2 opts n tbl entries exp with
      | none =>
        rw [hgb] at heq
        exact absurd heq (by simp)
      | some p =>
        obtain ⟨body, tbl1⟩ := p
        rw [hgb] at heq
        dsimp only at heq
        obtain rfl := Option.some.inj heq
        exact tableSet_key_mem _ _ _

/-- In a table with distinct keys, filtering on a present key yields
exactly that one entry. -/
theorem filter_key_singleton :
    ∀ (l : IfaceTable) (name : String), (l.map Prod.fst).Nodup →
      name ∈ l.map Prod.fst →
      ∃ c, l.filter (fun e => e.1 == name) = [(name, c)] := by
  intro l name
  induction l with
  | nil =>
    intro _ hm
    simp at hm
  | cons e rest ih =>
    intro hnd hm
    obtain ⟨k, v⟩ := e
    simp only [List.map_cons, List.nodup_cons] at hnd
    obtain ⟨hknot, hndrest⟩ := hnd
    by_cases hk : k = name
    · subst hk
      refine ⟨v, ?_⟩
      have hnil : rest.filter (fun e => e.1 == k) = [] := by
        rw [List.filter_eq_nil_iff]
        intro a ha
        simp only [beq_iff_eq]
        intro hc
        exact hknot (hc ▸ List.mem_map_of_mem Prod.fst ha)
      simp [List.filter_cons, hnil]
    · simp only [List.map_cons, List.mem_cons] at hm
      rcases hm with hm | hm
      · exact absurd hm.symm hk
      · obtain ⟨c, hc⟩ := ih hndrest hm
        refine ⟨c, ?_⟩
        simp only [List.filter_cons]
        rw [if_neg (by simpa using hk)]
        exact hc

/-- Tree sizes are positive. -/
theorem jsValSize_pos : ∀ v : JsVal, 1 ≤ jsValSize v := by
  intro v
  cases v <;> simp [jsValSize]

/-- Entry-list sizes are positive. -/
theorem jsValSizeP_pos : ∀ l : List (String × JsVal), 1 ≤ jsValSizeP l := by
  intro l
  cases l with
  | nil => simp [jsValSizeP]
  | cons e rest =>
    obtain ⟨k, v⟩ := e
    simp only [jsValSizeP]
    omega

/-- Structural fuel bounds suffice for the part_006 generation
functions. -/
theorem v2SuffAux : ∀ fuel : Nat,
    (∀ (opts : ConvertOptions) (tbl : IfaceTable)
        (entries : List (String × JsVal)) (name : String) (exp : Bool),
      jsValSizeP entries + 2 ≤ fuel →
      (genInterfaceV2 opts fuel tbl entries name exp).isSome = true)
    ∧ (∀ (opts : ConvertOptions) (tbl : IfaceTable)
        (entries : List (String × JsVal)) (exp : Bool),
      jsValSizeP entries + 1 ≤ fuel →
      (genBodyV2 opts fuel tbl entries exp).isSome = true)
    ∧ (∀ (opts : ConvertOptions) (tbl : IfaceTable) (v : JsVal)
        (pk : String) (exp : Bool),
      jsValSize v + 2 ≤ fuel →
      (getTypeV2 opts fuel tbl v pk exp).isSome = true) := by
  intro fuel
  induction fuel with
  | zero =>
    refine ⟨?_, ?_, ?_⟩
    · intro opts tbl entries name exp hsz
      have := jsValSizeP_pos entries
      omega
    · intro opts tbl entries exp hsz
      have := jsValSizeP_pos entries
      omega
    · intro opts tbl v pk exp hsz
      have := jsValSize_pos v
      omega
  | succ n ih =>
    obtain ⟨ihGI, ihGB, ihGT⟩ := ih
    refine ⟨?_, ?_, ?_⟩
    · intro opts tbl entries name exp hsz
      simp only [genInterfaceV2]
      by_cases hh : tableHas tbl name = true
      · rw [if_pos hh]
        simp
      · rw [if_neg hh]
        have hgb := ihGB opts tbl entries exp (by omega)
        cases hgb2 : genBodyV2 opts n tbl entries exp with
        | none =>
          rw [hgb2] at hgb
          simp at hgb
        | some p =>
          obtain ⟨body, tbl1⟩ := p
          simp
    · intro opts tbl entries exp hsz
      match entries with
      | [] => simp [genBodyV2]
      | (key, value) :: rest =>
        simp only [genBodyV2]
        have hszc : jsValSizeP ((key, value) :: rest)
            = 2 + jsValSize value + jsValSizeP rest := rfl
        have hv := jsValSize_pos value
        have hr := jsValSizeP_pos rest
        have hgt := ihGT opts tbl value (capitalizeKey key) exp (by omega)
        cases hgt2 : getTypeV2 opts n tbl value (capitalizeKey key) exp with
        | none =>
          rw [hgt2] at hgt
          simp at hgt
        | some p =>
          obtain ⟨ty, tbl1⟩ := p
          dsimp only
          have hgb := ihGB opts tbl1 rest exp (by omega)
          cases hgb2 : genBodyV2 opts n tbl1 rest exp with
          | none =>
            rw [hgb2] at hgb
            simp at hgb
          | some q =>
            obtain ⟨restBody, tbl2⟩ := q
            simp
    · intro opts tbl v pk exp hsz
      simp only [getTypeV2]
      cases htm : typeMapHit opts v with
      | some m => simp
      | none =>
        match v with
        | .obj fields =>
          dsimp only
          have hszf : jsValSize (JsVal.obj fields) = 1 + jsValSizeP fields :=
            rfl
          have hgi := ihGI opts tbl fields (capitalizeKey pk) exp (by omega)
          cases hgi2 : genInterfaceV2 opts n tbl fields (capitalizeKey pk)
              exp with
          | none =>
            rw [hgi2] at hgi
            simp at hgi
          | some tbl1 =>
            simp
        | .arr (x :: xs) => simp [detectJsTypeFromObject]
        | .arr [] => simp [detectJsTypeFromObject]
        | .null => simp [detectJsTypeFromObject]
        | .undef => simp [detectJsTypeFromObject]
        | .bool b => simp [detectJsTypeFromObject]
        | .num m => simp [detectJsTypeFromObject]
        | .str s => simp [detectJsTypeFromObject]
        | .bigint m => simp [detectJsTypeFromObject]

/-- Shape of a successful object-path conversion: the declaration list is
the reversed table with the assembly-time export prefix applied. -/
theorem v2Decls_obj_shape :
    ∀ (fuel : Nat) (opts : ConvertOptions) (v : JsVal) (name : String)
      (et : ExportType) (ds : List (String × String)),
      isNonObjectRootJ v = false →
      convertJsonV2Decls fuel opts v name et = some ds →
      ∃ tbl, genInterfaceV2 opts fuel [] (jsEntries v) name (et == .all)
          = some tbl
        ∧ ds = tbl.reverse.map (fun e =>
            (e.1, (if e.1 == name && et == .root then
                (if et != .none then "export " else "") else "") ++ e.2)) := by
  intro fuel opts v name et ds hv heq
  match v with
  | .obj fields =>
    simp only [convertJsonV2Decls] at heq
    cases hgi : genInterfaceV2 opts fuel [] (jsEntries (JsVal.obj fields))
        name (et == .all) with
    | none =>
      rw [hgi] at heq
      exact absurd heq (by simp)
    | some tbl =>
      rw [hgi] at heq
      dsimp only at heq
      exact ⟨tbl, rfl, (Option.some.inj heq).symm⟩
  | .arr xs =>
    simp only [convertJsonV2Decls] at heq
    cases hgi : genInterfaceV2 opts fuel [] (jsEntries (JsVal.arr xs))
        name (et == .all) with
    | none =>
      rw [hgi] at heq
      exact absurd heq (by simp)
    | some tbl =>
      rw [hgi] at heq
      dsimp only at heq
      exact ⟨tbl, rfl, (Option.some.inj heq).symm⟩

/-- Shape of a successful non-object-root conversion: one declaration,
a strict type alias or a permissive record. -/
theorem v2Decls_nonobj_shape :
    ∀ (fuel : Nat) (opts : ConvertOptions) (v : JsVal) (name : String)
      (et : ExportType) (ds : List (String × String)),
      isNonObjectRootJ v = true →
      convertJsonV2Decls fuel opts v name et = some ds →
      ds = [(name, (if et != .none then "export " else "")
          ++ (if opts.strictOn then "type " ++ (name ++ " = null;")
              else "interface "
                ++ (name ++ " \x7b\n  [p: string]: unknown;\n\x7d")))] := by
  intro fuel opts v name et ds hv heq
  have hgo : ∀ dz : List (String × String),
      (if opts.strictOn then
        some [(name, (if et != .none then "export " else "") ++ "type "
          ++ name ++ " = null;")]
      else
        some [(name, (if et != .none then "export " else "") ++ "interface "
          ++ name ++ " \x7b\n  [p: string]: unknown;\n\x7d")]) = some dz →
      dz = [(name, (if et != .none then "export " else "")
          ++ (if opts.strictOn then "type " ++ (name ++ " = null;")
              else "interface "
                ++ (name ++ " \x7b\n  [p: string]: unknown;\n\x7d")))] := by
    intro dz hdz
    cases hst : opts.strictOn with
    | true =>
      rw [hst] at hdz
      rw [if_pos rfl] at hdz
      rw [← Option.some.inj hdz]
      simp [String.append_assoc]
    | false =>
      rw [hst] at hdz
      rw [if_neg (by simp)] at hdz
      rw [← Option.some.inj hdz]
      simp [String.append_assoc]
  match v with
  | .null =>
    simp only [convertJsonV2Decls] at heq
    exact hgo ds heq
  | .undef =>
    simp only [convertJsonV2Decls] at heq
    exact hgo ds heq
  | .bool b =>
    simp only [convertJsonV2Decls] at heq
    exact hgo ds heq
  | .num m =>
    simp only [convertJsonV2Decls] at heq
    exact hgo ds heq
  | .str s =>
    simp only [convertJsonV2Decls] at heq
    exact hgo ds heq
  | .bigint m =>
    simp only [convertJsonV2Decls] at heq
    exact hgo ds heq

/-- Under the `root` policy the assembly prefix marks exactly the entry
with the root name: filtering the prefixed declarations for the export
marker and projecting the names yields exactly the root name. -/
theorem root_filter_lemma :
    ∀ (name : String) (l : IfaceTable),
      (l.map Prod.fst).Nodup → name ∈ l.map Prod.fst →
      (∀ e ∈ l, isExportedDecl e.2 = false) →
      ((l.map (fun e => (e.1, (if e.1 == name then "export " else "")
          ++ e.2))).filter (fun d => isExportedDecl d.2)).map Prod.fst
        = [name] := by
  intro name l
  induction l with
  | nil =>
    intro _ hmem _
    simp at hmem
  | cons e rest ih =>
    intro hnodup hmem hcontent
    obtain ⟨k, c⟩ := e
    simp only [List.map_cons, List.nodup_cons] at hnodup
    obtain ⟨hknot, hnd⟩ := hnodup
    simp only [List.map_cons, List.filter_cons]
    by_cases hk : (k == name) = true
    · have hkname : k = name := by simpa using hk
      simp only [hk, if_true]
      rw [if_pos (isExportedDecl_export_append c)]
      have hrest : (rest.map (fun e => (e.1,
          (if e.1 == name then "export " else "") ++ e.2))).filter
          (fun d => isExportedDecl d.2) = [] := by
        rw [List.filter_eq_nil_iff]
        intro d hd
        rw [List.mem_map] at hd
        obtain ⟨a, ha, rfl⟩ := hd
        have hne : (a.1 == name) = false := by
          cases hb : (a.1 == name) with
          | true =>
            have ha1 : a.1 = name := by simpa using hb
            exact absurd (hkname ▸ ha1 ▸ List.mem_map_of_mem Prod.fst ha)
              hknot
          | false => rfl
        simp only [hne]
        rw [if_neg (by simp), String.empty_append]
        simp [hcontent a (List.mem_cons_of_mem _ ha)]
      rw [hrest]
      simp [hkname]
    · have hk2 : (k == name) = false := by
        revert hk
        cases (k == name) <;> simp
      have hcfalse : isExportedDecl ((if (k == name) = true then "export "
          else "") ++ c) = false := by
        rw [hk2, if_neg (by simp), String.empty_append]
        exact hcontent (k, c) (List.mem_cons_self _ _)
      rw [if_neg (by rw [hcfalse]; simp)]
      have hmem2 : name ∈ rest.map Prod.fst := by
        rcases List.mem_cons.mp hmem with h | h
        · subst h
          simp at hk2
        · exact h
      exact ih hnd hmem2
        (fun a ha => hcontent a (List.mem_cons_of_mem _ ha))

/-- C2: for every input and root name, export policy `all` marks every
emitted declaration as exported, policy `root` marks exactly one — the
declaration whose name equals the supplied root name — and policy `none`
marks zero declarations; and the conversion completes at the structural
fuel bound. -/
theorem c2_export_policy :
    ∀ (opts : ConvertOptions) (v : JsVal) (name : String),
      (∀ (fuel : Nat) (ds : List (String × String)),
        convertJsonV2Decls fuel opts v name .all = some ds →
        ∀ d ∈ ds, isExportedDecl d.2 = true)
      ∧ (∀ (fuel : Nat) (ds : List (String × String)),
        convertJsonV2Decls fuel opts v name .root = some ds →
        (ds.filter (fun d => isExportedDecl d.2)).map Prod.fst = [name])
      ∧ (∀ (fuel : Nat) (ds : List (String × String)),
        convertJsonV2Decls fuel opts v name .none = some ds →
        ∀ d ∈ ds, isExportedDecl d.2 = false)
      ∧ (∀ et : ExportType,
        (convertJsonV2Decls (v2Fuel v) opts v name et).isSome = true) := by
  intro opts v name
  refine ⟨?_, ?_, ?_, ?_⟩
  · -- policy `all`
    intro fuel ds heq d hd
    by_cases hv : isNonObjectRootJ v = true
    · rw [v2Decls_nonobj_shape fuel opts v name .all ds hv heq] at hd
      rw [List.mem_singleton] at hd
      subst hd
      rw [if_pos (show (ExportType.all != ExportType.none) = true from rfl)]
      exact isExportedDecl_export_append _
    · have hv2 : isNonObjectRootJ v = false := by
        revert hv
        cases isNonObjectRootJ v <;> simp
      obtain ⟨tbl, hgi, hds⟩ :=
        v2Decls_obj_shape fuel opts v name .all ds hv2 heq
      have hinv := (v2TableInvAux fuel).1 opts [] (jsEntries v) name _
        tbl tableInv_nil hgi
      subst hds
      rw [List.mem_map] at hd
      obtain ⟨e, he, rfl⟩ := hd
      have hmark : isExportedDecl e.2 = true :=
        (hinv.2 e (List.mem_reverse.mp he)).trans rfl
      rw [show (ExportType.all == ExportType.root) = false from rfl,
        Bool.and_false]
      rw [if_neg (by simp), String.empty_append]
      exact hmark
  · -- policy `root`
    intro fuel ds heq
    by_cases hv : isNonObjectRootJ v = true
    · rw [v2Decls_nonobj_shape fuel opts v name .root ds hv heq]
      rw [if_pos (show (ExportType.root != ExportType.none) = true from rfl)]
      rw [List.filter_cons]
      rw [if_pos (by exact (by
        rw [isExportedDecl_export_append] : isExportedDecl
          ("export " ++ (if opts.strictOn = true then
            "type " ++ (name ++ " = null;")
          else "interface "
            ++ (name ++ " \x7b\n  [p: string]: unknown;\n\x7d"))) = true))]
      simp
    · have hv2 : isNonObjectRootJ v = false := by
        revert hv
        cases isNonObjectRootJ v <;> simp
      obtain ⟨tbl, hgi, hds⟩ :=
        v2Decls_obj_shape fuel opts v name .root ds hv2 heq
      have hinv := (v2TableInvAux fuel).1 opts [] (jsEntries v) name _
        tbl tableInv_nil hgi
      have hmem := genInterfaceV2_name_mem fuel opts [] (jsEntries v) name _
        tbl hgi
      subst hds
      have hfun : (fun (e : String × String) =>
          (e.1, (if e.1 == name && ExportType.root == ExportType.root then
            (if ExportType.root != ExportType.none then "export " else "")
            else "") ++ e.2))
          = (fun (e : String × String) =>
            (e.1, (if e.1 == name then "export " else "") ++ e.2)) := by
        funext e
        rw [show (ExportType.root == ExportType.root) = true from rfl,
          Bool.and_true,
          show (if (ExportType.root != ExportType.none) = true then "export "
            else "") = "export " from rfl]
      rw [hfun]
      exact root_filter_lemma name tbl.reverse
        (by
          rw [List.map_reverse]
          exact List.nodup_reverse.mpr hinv.1)
        (by
          rw [List.map_reverse, List.mem_reverse]
          exact hmem)
        (fun e he => (hinv.2 e (List.mem_reverse.mp he)).trans rfl)
  · -- policy `none`
    intro fuel ds heq d hd
    by_cases hv : isNonObjectRootJ v = true
    · rw [v2Decls_nonobj_shape fuel opts v name .none ds hv heq] at hd
      rw [List.mem_singleton] at hd
      subst hd
      rw [if_neg (by simp), String.empty_append]
      cases hst : opts.strictOn with
      | true =>
        rw [if_pos rfl]
        exact not_exported_type_append _
      | false =>
        rw [if_neg (by simp)]
        exact not_exported_interface_append _
    · have hv2 : isNonObjectRootJ v = false := by
        revert hv
        cases isNonObjectRootJ v <;> simp
      obtain ⟨tbl, hgi, hds⟩ :=
        v2Decls_obj_shape fuel opts v name .none ds hv2 heq
      have hinv := (v2TableInvAux fuel).1 opts [] (jsEntries v) name _
        tbl tableInv_nil hgi
      subst hds
      rw [List.mem_map] at hd
      obtain ⟨e, he, rfl⟩ := hd
      have hmark : isExportedDecl e.2 = false :=
        (hinv.2 e (List.mem_reverse.mp he)).trans rfl
      rw [show (ExportType.none == ExportType.root) = false from rfl,
        Bool.and_false]
      rw [if_neg (by simp), String.empty_append]
      exact hmark
  · -- sufficiency of the structural fuel bound
    intro et
    by_cases hv : isNonObjectRootJ v = true
    · match v, hv with
      | .null, _ =>
        simp only [convertJsonV2Decls]
        split <;> simp
      | .undef, _ =>
        simp only [convertJsonV2Decls]
        split <;> simp
      | .bool b, _ =>
        simp only [convertJsonV2Decls]
        split <;> simp
      | .num m, _ =>
        simp only [convertJsonV2Decls]
        split <;> simp
      | .str s, _ =>
        simp only [convertJsonV2Decls]
        split <;> simp
      | .bigint m, _ =>
        simp only [convertJsonV2Decls]
        split <;> simp
    · have hs := (v2SuffAux (v2Fuel v)).1 opts [] (jsEntries v) name
        (et == .all) (by unfold v2Fuel; omega)
      match v, hv with
      | .obj fields, _ =>
        simp only [convertJsonV2Decls]
        cases hgi : genInterfaceV2 opts (v2Fuel (JsVal.obj fields)) []
            (jsEntries (JsVal.obj fields)) name (et == .all) with
        | none =>
          rw [hgi] at hs
          simp at hs
        | some tbl => simp
      | .arr xs, _ =>
        simp only [convertJsonV2Decls]
        cases hgi : genInterfaceV2 opts (v2Fuel (JsVal.arr xs)) []
            (jsEntries (JsVal.arr xs)) name (et == .all) with
        | none =>
          rw [hgi] at hs
          simp at hs
        | some tbl => simp

/-- Witness for C2 at the basic nested-object scenario. -/
theorem c2_export_policy_witness :
    (∀ d ∈ [("Person", "export interface Person \x7b\n  user: User;\n\x7d"),
        ("User",
          "export interface User \x7b\n  name: string;\n  age: number;\n\x7d")],
      isExportedDecl d.2 = true)
    ∧ (([("Person", "export interface Person \x7b\n  user: User;\n\x7d"),
        ("User",
          "interface User \x7b\n  name: string;\n  age: number;\n\x7d")].filter
        (fun d => isExportedDecl d.2)).map Prod.fst = ["Person"])
    ∧ (convertJsonV2Decls (v2Fuel personInput) {} personInput "Person"
        .all).isSome = true :=
  ⟨(c2_export_policy {} personInput "Person").1 10 _ (by decide),
   (c2_export_policy {} personInput "Person").2.1 10 _ (by decide),
   (c2_export_policy {} personInput "Person").2.2.2 .all⟩

/-- Weighted sums over a filter shrink when the predicate strengthens. -/
theorem sum_filter_le_sum (l : List Nat) (w : Nat → Nat) (p q : Nat → Bool)
    (himp : ∀ a, q a = true → p a = true) :
    ((l.filter q).map w).sum ≤ ((l.filter p).map w).sum := by
  have hsub : List.Sublist (l.filter q) (l.filter p) :=
    List.monotone_filter_right l (fun a ha => himp a ha)
  exact (hsub.map w).sum_le_sum (fun a _ => Nat.zero_le a)

/-- Membership in the cons-extended visited list. -/
theorem contains_cons_eq (vis : List Nat) (id i : Nat) :
    (id :: vis).contains i = ((i == id) || vis.contains i) := by
  rfl

/-- Adding an identity absent from the pool leaves the filter
unchanged. -/
theorem filter_visited_noop (l : List Nat) (vis : List Nat) (id : Nat)
    (hid : id ∉ l) :
    l.filter (fun i => !((id :: vis).contains i))
      = l.filter (fun i => !(vis.contains i)) := by
  apply List.filter_congr
  intro a ha
  have hne : (a == id) = false := by
    cases hb : (a == id) with
    | true =>
      have : a = id := by simpa using hb
      exact absurd (this ▸ ha) hid
    | false => rfl
  show (!((id :: vis).contains a)) = (!(vis.contains a))
  rw [contains_cons_eq, hne, Bool.false_or]

/-- Splitting the weighted unvisited sum at a present, unvisited
identity. -/
theorem sum_filter_split (l : List Nat) (w : Nat → Nat) (vis : List Nat)
    (id : Nat) (hnd : l.Nodup) (hmem : id ∈ l) (hvis : id ∉ vis) :
    ((l.filter (fun i => !(vis.contains i))).map w).sum
      = w id
        + ((l.filter (fun i => !((id :: vis).contains i))).map w).sum := by
  induction l with
  | nil => simp at hmem
  | cons a rest ih =>
    simp only [List.nodup_cons] at hnd
    obtain ⟨hanot, hndrest⟩ := hnd
    rcases List.mem_cons.mp hmem with h | h
    · subst h
      have h1 : (vis.contains id) = false := by
        cases hb : vis.contains id with
        | true => exact absurd (List.elem_iff.mp hb) hvis
        | false => rfl
      have hc1 : ((fun i => !(vis.contains i)) id) = true := by
        show (!(vis.contains id)) = true
        rw [h1]
        rfl
      have hc2 : ¬ (((fun i => !((id :: vis).contains i)) id) = true) := by
        show ¬ ((!((id :: vis).contains id)) = true)
        rw [contains_cons_eq]
        simp
      rw [List.filter_cons_of_pos (p := fun i => !(vis.contains i))
          (a := id) (l := rest) hc1,
        List.filter_cons_of_neg (p := fun i => !((id :: vis).contains i))
          (a := id) (l := rest) hc2]
      simp only [List.map_cons, List.sum_cons]
      rw [filter_visited_noop rest vis id hanot]
    · have hane : (a == id) = false := by
        cases hb : (a == id) with
        | true =>
          have hai : a = id := by simpa using hb
          exact absurd (hai ▸ h) hanot
        | false => rfl
      have hcond : ((fun i => !((id :: vis).contains i)) a)
          = ((fun i => !(vis.contains i)) a) := by
        show (!((id :: vis).contains a)) = (!(vis.contains a))
        rw [contains_cons_eq, hane, Bool.false_or]
      cases hb : ((fun i => !(vis.contains i)) a) with
      | true =>
        rw [List.filter_cons_of_pos (p := fun i => !(vis.contains i))
            (a := a) (l := rest) hb,
          List.filter_cons_of_pos (p := fun i => !((id :: vis).contains i))
            (a := a) (l := rest) (hcond.trans hb)]
        simp only [List.map_cons, List.sum_cons]
        rw [ih hndrest h]
        omega
      | false =>
        rw [List.filter_cons_of_neg (p := fun i => !(vis.contains i))
            (a := a) (l := rest) (by rw [hb]; exact Bool.false_ne_true),
          List.filter_cons_of_neg (p := fun i => !((id :: vis).contains i))
            (a := a) (l := rest) (by rw [hcond, hb]; exact Bool.false_ne_true)]
        exact ih hndrest h

/-- Budget is monotone down as the visited list grows. -/
theorem heapBudget_mono (h : Heap) (vis vis2 : List Nat)
    (hsub : ∀ x, vis.contains x = true → vis2.contains x = true) :
    heapBudget h vis2 ≤ heapBudget h vis := by
  unfold heapBudget
  apply sum_filter_le_sum
  intro a hq
  cases hb : vis.contains a with
  | true =>
    have := hsub a hb
    rw [this] at hq
    simp at hq
  | false => rfl

/-- Splitting the budget at a resolvable, unvisited record. -/
theorem heapBudget_split (h : Heap) (vis : List Nat) (id : Nat)
    (flds : List (String × HValue)) (hfind : heapFind h id = some flds)
    (hvis : id ∉ vis) :
    heapBudget h vis
      = 2 + hvListSize flds + heapBudget h (id :: vis) := by
  have hdom : id ∈ (h.map Prod.fst).dedup := by
    rw [List.mem_dedup]
    unfold heapFind at hfind
    cases hf : h.find? (·.1 == id) with
    | none =>
      rw [hf] at hfind
      exact absurd hfind (by simp)
    | some e =>
      have he := List.find?_some hf
      have hmem := List.mem_of_find?_eq_some hf
      have heid : e.1 = id := by simpa using he
      exact heid ▸ List.mem_map_of_mem Prod.fst hmem
  have hw : heapNodeWeight h id = 2 + hvListSize flds := by
    unfold heapNodeWeight
    rw [hfind]
    rfl
  unfold heapBudget
  rw [sum_filter_split ((h.map Prod.fst).dedup) (heapNodeWeight h) vis id
    (List.nodup_dedup _) hdom hvis]
  rw [hw]

/-- A dangling reference leaves the budget unchanged when marked
visited. -/
theorem heapBudget_cons_eq_of_none (h : Heap) (vis : List Nat) (id : Nat)
    (hfind : heapFind h id = none) :
    heapBudget h (id :: vis) = heapBudget h vis := by
  have hdom : id ∉ (h.map Prod.fst).dedup := by
    rw [List.mem_dedup]
    intro hmem
    rw [List.mem_map] at hmem
    obtain ⟨e, he, hid⟩ := hmem
    unfold heapFind at hfind
    cases hf : h.find? (·.1 == id) with
    | some x =>
      rw [hf] at hfind
      exact absurd hfind (by simp)
    | none =>
      have := List.find?_eq_none.mp hf e he
      simp [hid] at this
  unfold heapBudget
  rw [filter_visited_noop _ vis id hdom]

/-- Every heap value has positive size. -/
theorem hvSize_pos : ∀ v, 1 ≤ hvSize v := by
  intro v
  cases v <;> simp [hvSize]

/-- Every heap-value list has positive size. -/
theorem hvSizeL_pos : ∀ xs, 1 ≤ hvSizeL xs := by
  intro xs
  cases xs with
  | nil => simp [hvSizeL]
  | cons x xs =>
    simp only [hvSizeL]
    omega

/-- Every field list has positive size. -/
theorem hvListSize_pos : ∀ e, 1 ≤ hvListSize e := by
  intro e
  cases e with
  | nil => simp [hvListSize]
  | cons kv rest =>
    obtain ⟨k, v⟩ := kv
    simp [hvListSize]
    omega

/-- The Referenced-strategy generators only ever grow the visited set:
the `WeakSet` of this generation never removes an identity. -/
theorem refVisitedMono (opts : ConvertOptions) (h : Heap) :
    ∀ fuel : Nat,
      (∀ st e n ae out, genInterfaceCoreR opts h fuel st e n ae = some out →
        ∀ x, st.visited.contains x = true → out.visited.contains x = true)
      ∧ (∀ st id n ae out, genInterfaceR opts h fuel st id n ae = some out →
        ∀ x, st.visited.contains x = true → out.visited.contains x = true)
      ∧ (∀ st e ae r, genBodyR opts h fuel st e ae = some r →
        ∀ x, st.visited.contains x = true → r.2.visited.contains x = true)
      ∧ (∀ st v pk ae r, getTypeR opts h fuel st v pk ae = some r →
        ∀ x, st.visited.contains x = true → r.2.visited.contains x = true) := by
  intro fuel
  induction fuel with
  | zero =>
    refine ⟨?_, ?_, ?_, ?_⟩
    · intro st e n ae out hout
      simp only [genInterfaceCoreR] at hout
      cases hout
    · intro st id n ae out hout
      simp only [genInterfaceR] at hout
      cases hout
    · intro st e ae r hout
      simp only [genBodyR] at hout
      cases hout
    · intro st v pk ae r hout
      simp only [getTypeR] at hout
      cases hout
  | succ fuel ih =>
    obtain ⟨ihC, ihI, ihB, ihT⟩ := ih
    refine ⟨?_, ?_, ?_, ?_⟩
    · intro st e n ae out hout x hx
      simp only [genInterfaceCoreR] at hout
      by_cases htab : tableHas st.interfaces n = true
      · rw [if_pos htab] at hout
        cases hout
        exact hx
      · rw [if_neg htab] at hout
        cases hgb : genBodyR opts h fuel st e ae with
        | none =>
          rw [hgb] at hout
          cases hout
        | some r =>
          rw [hgb] at hout
          obtain ⟨body, st1⟩ := r
          dsimp only at hout
          cases hout
          exact ihB st e ae (body, st1) hgb x hx
    · intro st id n ae out hout x hx
      simp only [genInterfaceR] at hout
      by_cases hvis : st.visited.contains id = true
      · rw [if_pos hvis] at hout
        cases hout
        exact hx
      · rw [if_neg hvis] at hout
        refine ihC ⟨st.interfaces, id :: st.visited⟩ ((heapFind h id).getD [])
          n ae out hout x ?_
        show (id :: st.visited).contains x = true
        rw [contains_cons_eq, hx]
        simp
    · intro st e ae r hout x hx
      cases e with
      | nil =>
        simp only [genBodyR] at hout
        cases hout
        exact hx
      | cons kv rest =>
        obtain ⟨key, value⟩ := kv
        simp only [genBodyR] at hout
        cases hgt : getTypeR opts h fuel st value (capitalizeKey key) ae with
        | none =>
          rw [hgt] at hout
          cases hout
        | some r1 =>
          rw [hgt] at hout
          obtain ⟨ty, st1⟩ := r1
          dsimp only at hout
          cases hgb2 : genBodyR opts h fuel st1 rest ae with
          | none =>
            rw [hgb2] at hout
            cases hout
          | some r2 =>
            rw [hgb2] at hout
            obtain ⟨restBody, st2⟩ := r2
            dsimp only at hout
            cases hout
            exact ihB st1 rest ae (restBody, st2) hgb2 x
              (ihT st value (capitalizeKey key) ae (ty, st1) hgt x hx)
    · intro st v pk ae r hout x hx
      cases v with
      | null =>
        simp only [getTypeR] at hout
        cases hout
        exact hx
      | bool b =>
        simp only [getTypeR] at hout
        cases hout
        exact hx
      | num m =>
        simp only [getTypeR] at hout
        cases hout
        exact hx
      | str s =>
        simp only [getTypeR] at hout
        cases hout
        exact hx
      | arr xs =>
        simp only [getTypeR] at hout
        by_cases href : xs.any isRefB = true
        · rw [if_pos href] at hout
          cases hfind : xs.find? isRefB with
          | none =>
            rw [hfind] at hout
            dsimp only at hout
            cases hout
            exact hx
          | some w2 =>
            rw [hfind] at hout
            cases w2 with
            | ref fid =>
              dsimp only at hout
              cases hgi : genInterfaceR opts h fuel st fid
                  (capitalizeKey pk) ae with
              | none =>
                rw [hgi] at hout
                cases hout
              | some st1 =>
                rw [hgi] at hout
                dsimp only at hout
                cases hout
                exact ihI st fid (capitalizeKey pk) ae st1 hgi x hx
            | null =>
              dsimp only at hout
              cases hout
              exact hx
            | bool b =>
              dsimp only at hout
              cases hout
              exact hx
            | num m =>
              dsimp only at hout
              cases hout
              exact hx
            | str s =>
              dsimp only at hout
              cases hout
              exact hx
            | arr ys =>
              dsimp only at hout
              cases hout
              exact hx
        · rw [if_neg href] at hout
          cases hout
          exact hx
      | ref id =>
        simp only [getTypeR] at hout
        cases hgi : genInterfaceR opts h fuel st id (capitalizeKey pk) ae with
        | none =>
          rw [hgi] at hout
          cases hout
        | some st1 =>
          rw [hgi] at hout
          dsimp only at hout
          cases hout
          exact ihI st id (capitalizeKey pk) ae st1 hgi x hx

/-- Fuel sufficiency for the Referenced-strategy generators: the size of
the value in hand plus the total weight of the not-yet-visited heap
records bounds the recursion depth, so enough fuel guarantees a result
on every heap, cyclic ones included. -/
theorem refSuff (opts : ConvertOptions) (h : Heap) :
    ∀ fuel : Nat,
      (∀ st (e : List (String × HValue)) n ae,
        hvListSize e + heapBudget h st.visited + 2 ≤ fuel →
        (genInterfaceCoreR opts h fuel st e n ae).isSome = true)
      ∧ (∀ st (id : Nat) n ae, heapBudget h st.visited + 4 ≤ fuel →
        (genInterfaceR opts h fuel st id n ae).isSome = true)
      ∧ (∀ st (e : List (String × HValue)) ae,
        hvListSize e + heapBudget h st.visited + 1 ≤ fuel →
        (genBodyR opts h fuel st e ae).isSome = true)
      ∧ (∀ st (v : HValue) pk ae,
        hvSize v + heapBudget h st.visited + 3 ≤ fuel →
        (getTypeR opts h fuel st v pk ae).isSome = true) := by
  intro fuel
  induction fuel with
  | zero =>
    refine ⟨?_, ?_, ?_, ?_⟩
    · intro st e n ae hb
      have := hvListSize_pos e
      omega
    · intro st id n ae hb
      omega
    · intro st e ae hb
      have := hvListSize_pos e
      omega
    · intro st v pk ae hb
      have := hvSize_pos v
      omega
  | succ fuel ih =>
    obtain ⟨ihC, ihI, ihB, ihT⟩ := ih
    refine ⟨?_, ?_, ?_, ?_⟩
    · intro st e n ae hb
      simp only [genInterfaceCoreR]
      by_cases htab : tableHas st.interfaces n = true
      · rw [if_pos htab]
        rfl
      · rw [if_neg htab]
        have hgb : (genBodyR opts h fuel st e ae).isSome = true :=
          ihB st e ae (by omega)
        cases hgbe : genBodyR opts h fuel st e ae with
        | none =>
          rw [hgbe] at hgb
          cases hgb
        | some r =>
          obtain ⟨body, st1⟩ := r
          rfl
    · intro st id n ae hb
      simp only [genInterfaceR]
      by_cases hvis : st.visited.contains id = true
      · rw [if_pos hvis]
        rfl
      · rw [if_neg hvis]
        apply ihC
        show hvListSize ((heapFind h id).getD [])
          + heapBudget h (id :: st.visited) + 2 ≤ fuel
        cases hfind : heapFind h id with
        | none =>
          rw [heapBudget_cons_eq_of_none h st.visited id hfind]
          have h1 : hvListSize ((Option.none).getD
            ([] : List (String × HValue))) = 1 := rfl
          rw [h1]
          omega
        | some flds =>
          have hsplit := heapBudget_split h st.visited id flds hfind
            (fun hmem => hvis (List.elem_iff.mpr hmem))
          have h1 : (some flds).getD ([] : List (String × HValue)) = flds :=
            rfl
          rw [h1]
          omega
    · intro st e ae hb
      cases e with
      | nil =>
        simp only [genBodyR]
        rfl
      | cons kv rest =>
        obtain ⟨key, value⟩ := kv
        simp only [hvListSize] at hb
        simp only [genBodyR]
        have hrp := hvListSize_pos rest
        have hgt : (getTypeR opts h fuel st value
            (capitalizeKey key) ae).isSome = true :=
          ihT st value (capitalizeKey key) ae (by omega)
        cases hgte : getTypeR opts h fuel st value (capitalizeKey key) ae with
        | none =>
          rw [hgte] at hgt
          cases hgt
        | some r1 =>
          obtain ⟨ty, st1⟩ := r1
          dsimp only
          have hmono : ∀ x, st.visited.contains x = true →
              st1.visited.contains x = true :=
            fun x hx => (refVisitedMono opts h fuel).2.2.2 st value
              (capitalizeKey key) ae (ty, st1) hgte x hx
          have hble : heapBudget h st1.visited ≤ heapBudget h st.visited :=
            heapBudget_mono h st.visited st1.visited hmono
          have hgb2 : (genBodyR opts h fuel st1 rest ae).isSome = true :=
            ihB st1 rest ae (by omega)
          cases hgb2e : genBodyR opts h fuel st1 rest ae with
          | none =>
            rw [hgb2e] at hgb2
            cases hgb2
          | some r2 =>
            obtain ⟨restBody, st2⟩ := r2
            rfl
    · intro st v pk ae hb
      cases v with
      | null =>
        simp only [getTypeR]
        rfl
      | bool b =>
        simp only [getTypeR]
        rfl
      | num m =>
        simp only [getTypeR]
        rfl
      | str s =>
        simp only [getTypeR]
        rfl
      | arr xs =>
        simp only [hvSize] at hb
        have hxp := hvSizeL_pos xs
        simp only [getTypeR]
        by_cases href : xs.any isRefB = true
        · rw [if_pos href]
          cases hfind : xs.find? isRefB with
          | none => rfl
          | some w2 =>
            cases w2 with
            | ref fid =>
              dsimp only
              have hgi : (genInterfaceR opts h fuel st fid
                  (capitalizeKey pk) ae).isSome = true :=
                ihI st fid (capitalizeKey pk) ae (by omega)
              cases hgie : genInterfaceR opts h fuel st fid
                  (capitalizeKey pk) ae with
              | none =>
                rw [hgie] at hgi
                cases hgi
              | some st1 => rfl
            | null => rfl
            | bool b => rfl
            | num m => rfl
            | str s => rfl
            | arr ys => rfl
        · rw [if_neg href]
          rfl
      | ref id =>
        simp only [hvSize] at hb
        simp only [getTypeR]
        have hgi : (genInterfaceR opts h fuel st id
            (capitalizeKey pk) ae).isSome = true :=
          ihI st id (capitalizeKey pk) ae (by omega)
        cases hgie : genInterfaceR opts h fuel st id (capitalizeKey pk) ae with
        | none =>
          rw [hgie] at hgi
          cases hgi
        | some st1 => rfl

/-- Fuel sufficiency for the Flattened-strategy body generator: the size
of the value plus the weight of the unvisited heap records bounds the
recursion depth on every heap, cyclic ones included. -/
theorem flatSuff (opts : ConvertOptions) (h : Heap) :
    ∀ fuel : Nat,
      (∀ visited (v : HValue) lvl,
        hvSize v + heapBudget h visited + 2 ≤ fuel →
        (generateObjectBodyF opts h fuel visited v lvl).isSome = true)
      ∧ (∀ visited (flds : List (String × HValue)) lvl,
        hvListSize flds + heapBudget h visited + 2 ≤ fuel →
        (renderFieldsF opts h fuel visited flds lvl).isSome = true) := by
  intro fuel
  induction fuel with
  | zero =>
    refine ⟨?_, ?_⟩
    · intro visited v lvl hb
      have := hvSize_pos v
      omega
    · intro visited flds lvl hb
      have := hvListSize_pos flds
      omega
  | succ fuel ih =>
    obtain ⟨ihG, ihR⟩ := ih
    refine ⟨?_, ?_⟩
    · intro visited v lvl hb
      cases v with
      | null =>
        simp only [generateObjectBodyF]
        rfl
      | bool b =>
        simp only [generateObjectBodyF]
        rfl
      | num m =>
        simp only [generateObjectBodyF]
        rfl
      | str s =>
        simp only [generateObjectBodyF]
        rfl
      | arr xs =>
        cases xs with
        | nil =>
          simp only [generateObjectBodyF]
          rfl
        | cons x rest =>
          simp only [hvSize, hvSizeL] at hb
          simp only [generateObjectBodyF]
          by_cases hall : (x :: rest).all isPrimitiveItemH = true
          · rw [if_pos hall]
            rfl
          · rw [if_neg hall]
            have hgo : (generateObjectBodyF opts h fuel visited x
                lvl).isSome = true :=
              ihG visited x lvl (by omega)
            cases hgoe : generateObjectBodyF opts h fuel visited x lvl with
            | none =>
              rw [hgoe] at hgo
              cases hgo
            | some elementType => rfl
      | ref id =>
        simp only [hvSize] at hb
        simp only [generateObjectBodyF]
        by_cases hvis : visited.contains id = true
        · rw [if_pos hvis]
          rfl
        · rw [if_neg hvis]
          have hrf : (renderFieldsF opts h fuel (id :: visited)
              ((heapFind h id).getD []) lvl).isSome = true := by
            apply ihR
            cases hfind : heapFind h id with
            | none =>
              rw [heapBudget_cons_eq_of_none h visited id hfind]
              have h1 : hvListSize ((Option.none).getD
                ([] : List (String × HValue))) = 1 := rfl
              rw [h1]
              omega
            | some flds =>
              have hsplit := heapBudget_split h visited id flds hfind
                (fun hmem => hvis (List.elem_iff.mpr hmem))
              have h1 : (some flds).getD
                ([] : List (String × HValue)) = flds := rfl
              rw [h1]
              omega
          cases hrfe : renderFieldsF opts h fuel (id :: visited)
              ((heapFind h id).getD []) lvl with
          | none =>
            rw [hrfe] at hrf
            cases hrf
          | some body =>
            dsimp only
            by_cases hemp : ((heapFind h id).getD
                ([] : List (String × HValue))).isEmpty = true
            · rw [if_pos hemp]
              rfl
            · rw [if_neg hemp]
              rfl
    · intro visited flds lvl hb
      cases flds with
      | nil =>
        simp only [renderFieldsF]
        rfl
      | cons kv rest =>
        obtain ⟨key, value⟩ := kv
        simp only [hvListSize] at hb
        simp only [renderFieldsF]
        have hgo : (generateObjectBodyF opts h fuel visited value
            (lvl + 1)).isSome = true :=
          ihG visited value (lvl + 1) (by omega)
        cases hgoe : generateObjectBodyF opts h fuel visited value
            (lvl + 1) with
        | none =>
          rw [hgoe] at hgo
          cases hgo
        | some ty =>
          dsimp only
          have hrf : (renderFieldsF opts h fuel visited rest
              lvl).isSome = true :=
            ihR visited rest lvl (by omega)
          cases hrfe : renderFieldsF opts h fuel visited rest lvl with
          | none =>
            rw [hrfe] at hrf
            cases hrf
          | some restBody => rfl

/-- The Referenced-strategy conversion terminates on every heap: some
finite fuel suffices. -/
theorem convertJsonRef_total (opts : ConvertOptions) (h : Heap)
    (root : HValue) (name : String) (et : ExportType) :
    ∃ fuel, (convertJsonRef fuel opts h root name et).isSome = true := by
  cases root with
  | ref id =>
    refine ⟨heapBudget h [] + 4, ?_⟩
    simp only [convertJsonRef, convertJsonRefDecls]
    have hgi : (genInterfaceR opts h (heapBudget h [] + 4) ⟨[], []⟩ id name
        (et == ExportType.all)).isSome = true :=
      (refSuff opts h (heapBudget h [] + 4)).2.1 ⟨[], []⟩ id name
        (et == ExportType.all) (Nat.le_refl _)
    cases hgie : genInterfaceR opts h (heapBudget h [] + 4) ⟨[], []⟩ id name
        (et == ExportType.all) with
    | none =>
      rw [hgie] at hgi
      cases hgi
    | some st => rfl
  | arr xs =>
    refine ⟨hvListSize (convertJsonRefDecls.enumHIdx 0 xs)
      + heapBudget h [] + 2, ?_⟩
    simp only [convertJsonRef, convertJsonRefDecls]
    have hgc : (genInterfaceCoreR opts h
        (hvListSize (convertJsonRefDecls.enumHIdx 0 xs) + heapBudget h [] + 2)
        ⟨[], []⟩ (convertJsonRefDecls.enumHIdx 0 xs) name
        (et == ExportType.all)).isSome = true :=
      (refSuff opts h _).1 ⟨[], []⟩ (convertJsonRefDecls.enumHIdx 0 xs) name
        (et == ExportType.all) (Nat.le_refl _)
    cases hgce : genInterfaceCoreR opts h
        (hvListSize (convertJsonRefDecls.enumHIdx 0 xs) + heapBudget h [] + 2)
        ⟨[], []⟩ (convertJsonRefDecls.enumHIdx 0 xs) name
        (et == ExportType.all) with
    | none =>
      rw [hgce] at hgc
      cases hgc
    | some st => rfl
  | null => exact ⟨0, rfl⟩
  | bool b => exact ⟨0, rfl⟩
  | num m => exact ⟨0, rfl⟩
  | str s => exact ⟨0, rfl⟩

/-- The Flattened-strategy conversion terminates on every heap: some
finite fuel suffices. -/
theorem convertJsonFlat_total (opts : ConvertOptions) (h : Heap)
    (root : HValue) (name : String) (et : ExportType) :
    ∃ fuel, (convertJsonFlat fuel opts h root name et).isSome = true := by
  cases root with
  | ref id =>
    refine ⟨hvSize (HValue.ref id) + heapBudget h [] + 2, ?_⟩
    simp only [convertJsonFlat]
    have hgo : (generateObjectBodyF opts h
        (hvSize (HValue.ref id) + heapBudget h [] + 2) []
        (HValue.ref id) 0).isSome = true :=
      (flatSuff opts h _).1 [] (HValue.ref id) 0 (Nat.le_refl _)
    cases hgoe : generateObjectBodyF opts h
        (hvSize (HValue.ref id) + heapBudget h [] + 2) []
        (HValue.ref id) 0 with
    | none =>
      rw [hgoe] at hgo
      cases hgo
    | some body0 => rfl
  | arr xs =>
    refine ⟨hvSize (HValue.arr xs) + heapBudget h [] + 2, ?_⟩
    simp only [convertJsonFlat]
    have hgo : (generateObjectBodyF opts h
        (hvSize (HValue.arr xs) + heapBudget h [] + 2) []
        (HValue.arr xs) 0).isSome = true :=
      (flatSuff opts h _).1 [] (HValue.arr xs) 0 (Nat.le_refl _)
    cases hgoe : generateObjectBodyF opts h
        (hvSize (HValue.arr xs) + heapBudget h [] + 2) []
        (HValue.arr xs) 0 with
    | none =>
      rw [hgoe] at hgo
      cases hgo
    | some body0 => rfl
  | null => exact ⟨0, rfl⟩
  | bool b => exact ⟨0, rfl⟩
  | num m => exact ⟨0, rfl⟩
  | str s => exact ⟨0, rfl⟩

/-- C8: cycle safety and termination.  (1) The Referenced strategy never
re-enters a record already in the visited set: `generateInterface`
returns with the state unchanged.  (2) The Flattened strategy renders a
revisited record as the fallback token `any`.  (3) For the direct
self-reference `a.self = a` the Referenced conversion emits a single
`Root` declaration whose re-entrant property keeps only the reference
name `Self` and omits its deep content, and (4) the Flattened conversion
renders the inner occurrence as `any`.  (5)-(6) Both strategies return a
result on a ring of 10 records (10 levels of genuine self-reference).
(7)-(8) Conversion terminates on every heap, cyclic or not: some finite
fuel yields a result for either strategy. -/
theorem c8_cycle_safety :
    (∀ (opts : ConvertOptions) (h : Heap) (fuel : Nat) (st : StRef)
      (id : Nat) (name : String) (ae : Bool),
      st.visited.contains id = true →
      genInterfaceR opts h (fuel + 1) st id name ae = some st)
    ∧ (∀ (opts : ConvertOptions) (h : Heap) (fuel : Nat)
      (visited : List Nat) (id : Nat) (lvl : Nat),
      visited.contains id = true →
      generateObjectBodyF opts h (fuel + 1) visited (.ref id) lvl
        = some "any")
    ∧ convertJsonRefDecls 100 {} selfHeap (.ref 0) "Root" .all
        = some [("Root", "export interface Root \x7b\n  self: Self;\n\x7d")]
    ∧ convertJsonFlat 100 {} selfHeap (.ref 0) "Root" .root
        = some "export interface Root \x7b\n  self: any;\n\x7d"
    ∧ (convertJsonRef 100 {} (chainHeap 10) (.ref 0) "Root" .root).isSome
        = true
    ∧ (convertJsonFlat 100 {} (chainHeap 10) (.ref 0) "Root" .root).isSome
        = true
    ∧ (∀ (opts : ConvertOptions) (h : Heap) (root : HValue) (name : String)
      (et : ExportType),
      ∃ fuel, (convertJsonRef fuel opts h root name et).isSome = true)
    ∧ (∀ (opts : ConvertOptions) (h : Heap) (root : HValue) (name : String)
      (et : ExportType),
      ∃ fuel, (convertJsonFlat fuel opts h root name et).isSome = true) := by
  refine ⟨?_, ?_, by decide, by decide, by decide, by decide,
    convertJsonRef_total, convertJsonFlat_total⟩
  · intro opts h fuel st id name ae hvis
    simp only [genInterfaceR]
    rw [if_pos hvis]
  · intro opts h fuel visited id lvl hvis
    simp only [generateObjectBodyF]
    rw [if_pos hvis]

/-- C8 witness: the guards fire at concrete inputs - a state that has
already visited record 0 is returned unchanged by the Referenced
`generateInterface`, and the Flattened body generator renders the
revisited record 0 as `any`. -/
theorem c8_cycle_safety_witness :
    genInterfaceR {} selfHeap 5 ⟨[], [0]⟩ 0 "Root" true = some ⟨[], [0]⟩
    ∧ generateObjectBodyF {} selfHeap 5 [0] (.ref 0) 1 = some "any" :=
  ⟨c8_cycle_safety.1 {} selfHeap 4 ⟨[], [0]⟩ 0 "Root" true (by decide),
   c8_cycle_safety.2.1 {} selfHeap 4 [0] 0 1 (by decide)⟩
